import Mathlib

/-!
# Polygon collision utilities of ENIGMA (`polygon_collision_util.h`)

A shallow embedding of
`ENIGMAsystem/SHELL/Collision_Systems/Polygon/polygon_collision_util.h`.

* `glm::vec2` is a pair of coordinates over an ordered field `K`; the floating
  point numbers of the source are read as exact numbers.
* `std::vector<glm::vec2>` is a `List`.
* Reading element `0` of an empty vector is undefined behaviour in the source;
  the embedding returns `none` there.
* `enigma::computeNormals` comes from the included headers `Universal_System/Resources/polygon.h`
  and `polygon_internal.h`, which are not part of the sources at hand. The functions that call
  it take it as a parameter `computeNormals`, and a definition of it following the
  specification is given separately.
-/

set_option linter.unusedSectionVars false

namespace Enigma

variable {K : Type} [LinearOrderedField K]

/-- A `glm::vec2`: the pair of the `x` and the `y` coordinate. -/
abbrev Vec2 (K : Type) : Type := K × K

/-- The `glm::dot` product of two vectors. -/
def dot (u v : Vec2 K) : K := u.1 * v.1 + u.2 * v.2

/-- The record `enigma::MinMaxProjection` filled by `getMinMaxProjection`. -/
structure MinMaxProjection (K : Type) where
  min_projection : K
  max_projection : K
  max_index : Nat
  min_index : Nat
deriving DecidableEq, Repr

/-- The body of the `for (int j = 1; j < vecs_box.size(); ++j)` loop of
`getMinMaxProjection`, run over the points that remain, `j` being the index of the
first of them. The state is the four local variables
`min_proj_box`, `max_proj_box`, `min_dot_box`, `max_dot_box`. -/
def projectionLoop (axis : Vec2 K) : List (Vec2 K) → Nat → K × K × Nat × Nat → K × K × Nat × Nat
  | [], _, st => st
  | v :: vs, j, (min_proj_box, max_proj_box, min_dot_box, max_dot_box) =>
    let current_proj := dot v axis
    let selMin : K × Nat :=
      if min_proj_box > current_proj then (current_proj, j) else (min_proj_box, min_dot_box)
    let selMax : K × Nat :=
      if current_proj > max_proj_box then (current_proj, j) else (max_proj_box, max_dot_box)
    projectionLoop axis vs (j + 1) (selMin.1, selMax.1, selMin.2, selMax.2)

/-- The function `getMinMaxProjection(vecs_box, axis)`. On an empty vector the source reads
`vecs_box[0]`, which is undefined: the embedding gives `none`. -/
def getMinMaxProjection (vecs_box : List (Vec2 K)) (axis : Vec2 K) :
    Option (MinMaxProjection K) :=
  match vecs_box with
  | [] => none
  | v0 :: vs =>
    let st := projectionLoop axis vs 1 (dot v0 axis, dot v0 axis, 0, 0)
    some { min_projection := st.1, max_projection := st.2.1,
           max_index := st.2.2.2, min_index := st.2.2.1 }

/-- One `for` loop of `get_polygon_polygon_collision` over the normals that remain.
The second argument is the current value of the flag `isSeparated`; the result is its
value when the loop is left (by `break` or because the normals are used up), or `none`
when a projection is undefined. -/
def separationLoop (points_poly1 points_poly2 : List (Vec2 K)) :
    List (Vec2 K) → Bool → Option Bool
  | [], isSeparated => some isSeparated
  | n :: rest, _ =>
    match getMinMaxProjection points_poly1 n with
    | none => none
    | some result1 =>
      match getMinMaxProjection points_poly2 n with
      | none => none
      | some result2 =>
        let isSeparated : Bool :=
          decide (result1.max_projection < result2.min_projection) ||
          decide (result2.max_projection < result1.min_projection)
        if isSeparated then some true else separationLoop points_poly1 points_poly2 rest false

/-- The function `get_polygon_polygon_collision(points_poly1, points_poly2)`.
`computeNormals` stands for `enigma::computeNormals`. -/
def get_polygon_polygon_collision (computeNormals : List (Vec2 K) → List (Vec2 K))
    (points_poly1 points_poly2 : List (Vec2 K)) : Option Bool :=
  let normals_poly1 := computeNormals points_poly1
  let normals_poly2 := computeNormals points_poly2
  match separationLoop points_poly1 points_poly2 normals_poly1 false with
  | none => none
  | some isSeparated =>
    let afterSecond : Option Bool :=
      if !isSeparated then separationLoop points_poly1 points_poly2 normals_poly2 isSeparated
      else some isSeparated
    match afterSecond with
    | none => none
    | some isSeparated2 => if !isSeparated2 then some true else some false

/-- The function `get_bbox_from_dimensions(x1, y1, width, height)`: the points added to
`bbox_polygon`, in the order of the `addPoint` calls. `width` and `height` are `int`
parameters. -/
def get_bbox_from_dimensions (x1 y1 : K) (width height : Int) : List (Vec2 K) :=
  let top_left : Vec2 K := (x1, y1)
  let top_right : Vec2 K := ((width : K), y1)
  let bottom_left : Vec2 K := (x1, (height : K))
  let bottom_right : Vec2 K := ((width : K), (height : K))
  [top_left, top_right, bottom_right, bottom_left]

/-- The conversion of a `double` value to `int` (truncation toward zero), which takes place
when a `double` argument is passed for an `int` parameter. -/
def doubleToInt (q : ℚ) : Int := Int.tdiv q.num q.den

/-- The function `getEllipseProjectionPoints(angleOfAxis, eps_x, eps_y, rx, ry)`. `sin` and `cos`
stand for the functions of `<cmath>`, and `pow(x, 2)` is `x ^ 2`. The source divides without a
check; where the denominator is zero the quotient is no number of exact arithmetic (NaN or an
infinity in floating point), and the embedding gives `none`. -/
def getEllipseProjectionPoints (sin cos : K → K) (angleOfAxis eps_x eps_y rx ry : K) :
    Option (List (Vec2 K)) :=
  let denominator := rx ^ 2 * sin angleOfAxis ^ 2 + ry ^ 2 * cos angleOfAxis ^ 2
  if denominator = 0 then none
  else
    let r_theta := (rx * ry) / denominator
    let min_proj_point : Vec2 K :=
      (r_theta * cos angleOfAxis - eps_x, r_theta * sin angleOfAxis - eps_y)
    let max_proj_point : Vec2 K :=
      (r_theta * cos angleOfAxis + eps_x, r_theta * sin angleOfAxis + eps_y)
    some [min_proj_point, max_proj_point]

/-- The `for` loop of `get_polygon_ellipse_collision` over the normals that remain, `i` being
the index of the first of them and `size` the value of `normals_poly.size()`. The flag
`isSeparated` is threaded as in `separationLoop`. Reading `points_poly` outside its bounds is
undefined (`none`). `angleBetweenVectors` stands for `enigma::angleBetweenVectors`. -/
def ellipseLoop (sin cos : K → K) (angleBetweenVectors : Vec2 K → Vec2 K → K)
    (points_poly : List (Vec2 K)) (x2 y2 rx ry : K) (size : Nat) :
    List (Vec2 K) → Nat → Bool → Option Bool
  | [], _, isSeparated => some isSeparated
  | n :: rest, i, _ =>
    match points_poly[i]? with
    | none => none
    | some point2 =>
      match (if i = size - 1 then points_poly[0]? else points_poly[i + 1]?) with
      | none => none
      | some point1 =>
        let angleOfAxis := -angleBetweenVectors point1 point2
        match getEllipseProjectionPoints sin cos angleOfAxis x2 y2 rx ry with
        | none => none
        | some ellipse_points =>
          match getMinMaxProjection points_poly n with
          | none => none
          | some result1 =>
            match getMinMaxProjection ellipse_points n with
            | none => none
            | some result2 =>
              let isSeparated : Bool :=
                decide (result1.max_projection < result2.min_projection) ||
                decide (result2.max_projection < result1.min_projection)
              if isSeparated then some true
              else ellipseLoop sin cos angleBetweenVectors points_poly x2 y2 rx ry size
                rest (i + 1) false

/-- The function `get_polygon_ellipse_collision(points_poly, x2, y2, rx, ry)`. -/
def get_polygon_ellipse_collision (computeNormals : List (Vec2 K) → List (Vec2 K))
    (sin cos : K → K) (angleBetweenVectors : Vec2 K → Vec2 K → K)
    (points_poly : List (Vec2 K)) (x2 y2 rx ry : K) : Option Bool :=
  let normals_poly := computeNormals points_poly
  match ellipseLoop sin cos angleBetweenVectors points_poly x2 y2 rx ry normals_poly.length
      normals_poly 0 false with
  | none => none
  | some isSeparated => if !isSeparated then some true else some false

/-- The fields of `enigma::object_collisions` that the functions read. -/
structure object_collisions (K : Type) where
  x : K
  y : K
  mask_index : Int
  sprite_index : Int
  polygon_index : Int
  polygon_angle : K
  polygon_xscale : K
  polygon_yscale : K

/-- The fields of `enigma::Sprite` that the functions read. -/
structure Sprite where
  width : Int
  height : Int

/-- What the functions use of the rest of the engine: the sprite and polygon registries
(`enigma::sprites.get`, `enigma::polygons.get(i).getPoints()`,
`enigma::polygons.get(i).computeCenter()`) and the helpers `enigma::transformPoints` and
`enigma::offsetPoints`, which change a vector of points in place and are given here as
functions from the old vector to the new one. -/
structure Engine (K : Type) where
  sprites : Int → Sprite
  polygonPoints : Int → List (Vec2 K)
  polygonCenter : Int → Vec2 K
  transformPoints : List (Vec2 K) → K → K → K → Vec2 K → K → K → List (Vec2 K)
  offsetPoints : List (Vec2 K) → K → K → List (Vec2 K)

/-- The function `get_polygon_bbox_collision(inst1, inst2)`. The returned pointer is `some inst2`
or `none` for `NULL`; the outer `Option` is `none` where the overlap test is undefined. -/
def get_polygon_bbox_collision (computeNormals : List (Vec2 K) → List (Vec2 K))
    (engine : Engine K) (inst1 inst2 : object_collisions K) :
    Option (Option (object_collisions K)) :=
  let collsprite_index2 : Int :=
    if inst2.mask_index ≠ -1 then inst2.mask_index else inst2.sprite_index
  let sprite2 := engine.sprites collsprite_index2
  let w2 := sprite2.width
  let h2 := sprite2.height
  let bbox_polygon : List (Vec2 K) := get_bbox_from_dimensions 0 0 w2 h2
  let bbox_points := engine.offsetPoints bbox_polygon inst2.x inst2.y
  let points_poly := engine.polygonPoints inst1.polygon_index
  let pivot := engine.polygonCenter inst1.polygon_index
  let points_poly := engine.transformPoints points_poly inst1.x inst1.y inst1.polygon_angle pivot
    inst1.polygon_xscale inst1.polygon_yscale
  match get_polygon_polygon_collision computeNormals points_poly bbox_points with
  | none => none
  | some collides => some (if collides then some inst2 else none)

/-- The box `bbox_main` of `get_polygon_point_collision`, the value of the call
`get_bbox_from_dimensions(0, 0, 0.2, 0.2)`: the arguments `0.2` are passed for the `int`
parameters `width` and `height`. -/
def bbox_main : List (Vec2 K) :=
  get_bbox_from_dimensions 0 0 (doubleToInt 0.2) (doubleToInt 0.2)

/-- The function `get_polygon_point_collision(inst, x1, y1)`. The comparison `!= NULL` of the
`bool` result with the null constant leaves it as it is. -/
def get_polygon_point_collision (computeNormals : List (Vec2 K) → List (Vec2 K))
    (engine : Engine K) (inst : object_collisions K) (x1 y1 : Int) : Option Bool :=
  let points_poly2 := engine.polygonPoints inst.polygon_index
  let bbox_points : List (Vec2 K) := bbox_main
  let pivot2 := engine.polygonCenter inst.polygon_index
  let points_poly2 := engine.transformPoints points_poly2 inst.x inst.y inst.polygon_angle pivot2
    inst.polygon_xscale inst.polygon_yscale
  let bbox_points := engine.offsetPoints bbox_points (x1 : K) (y1 : K)
  match get_polygon_polygon_collision computeNormals bbox_points points_poly2 with
  | none => none
  | some collides => some (collides != false)

/-! ## The normals, after the specification -/

/-- The perpendicular of a vector (a quarter turn). -/
def perp (v : Vec2 K) : Vec2 K := (v.2, -v.1)

/-- The edges of a closed vertex list that begins at `first`: every vertex paired with the
next one, the last vertex paired with `first`. -/
def edgesFrom (first : Vec2 K) : List (Vec2 K) → List (Vec2 K × Vec2 K)
  | [] => []
  | [p] => [(p, first)]
  | p :: q :: rest => (p, q) :: edgesFrom first (q :: rest)

/-- The edges of a polygon: consecutive vertex pairs, wrapping last-to-first. -/
def edges : List (Vec2 K) → List (Vec2 K × Vec2 K)
  | [] => []
  | p :: ps => edgesFrom p (p :: ps)

/-- Modelled from the spec: `enigma::computeNormals` (from the included polygon headers, absent
from the sources at hand). Section 4.2: one normal per edge, the perpendicular of the edge vector
between each consecutive vertex pair, wrapping last-to-first; `n` axes for `n` vertices, no
deduplication; a single point yields zero normals. -/
def computeNormals (points : List (Vec2 K)) : List (Vec2 K) :=
  if points.length ≤ 1 then []
  else (edges points).map (fun e => perp (e.2 - e.1))

/-! ## The separation test, after the specification -/

/-- The largest of the dot products of the points with the axis (`0` for no points). -/
def maxProjection (P : List (Vec2 K)) (a : Vec2 K) : K :=
  match P with
  | [] => 0
  | p :: ps => ps.foldr (fun q m => max (dot q a) m) (dot p a)

/-- The smallest of the dot products of the points with the axis (`0` for no points). -/
def minProjection (P : List (Vec2 K)) (a : Vec2 K) : K :=
  match P with
  | [] => 0
  | p :: ps => ps.foldr (fun q m => min (dot q a) m) (dot p a)

/-- Section 4.3: an axis separates two shapes when `max(A) < min(B)` or `max(B) < min(A)`. -/
def Separates (A B : List (Vec2 K)) (n : Vec2 K) : Prop :=
  maxProjection A n < minProjection B n ∨ maxProjection B n < minProjection A n

instance (A B : List (Vec2 K)) (n : Vec2 K) : Decidable (Separates A B n) := by
  unfold Separates; infer_instance

/-- Section 4.3 without the short cut: every axis of both shapes is looked at, and the
shapes overlap when none of them separates. -/
def scanEveryAxis (computeNormals : List (Vec2 K) → List (Vec2 K)) (A B : List (Vec2 K)) : Bool :=
  (computeNormals A ++ computeNormals B).all (fun n => !decide (Separates A B n))

/-! ## Notions used in the statements -/

/-- `m` is the least element of `ds` and `i` is the first index holding it. -/
def IsFirstMin (ds : List K) (m : K) (i : Nat) : Prop :=
  ds[i]? = some m ∧ (∀ x ∈ ds, m ≤ x) ∧ ∀ k, k < i → ∀ x, ds[k]? = some x → m < x

/-- `m` is the greatest element of `ds` and `i` is the first index holding it. -/
def IsFirstMax (ds : List K) (m : K) (i : Nat) : Prop :=
  ds[i]? = some m ∧ (∀ x ∈ ds, x ≤ m) ∧ ∀ k, k < i → ∀ x, ds[k]? = some x → x < m

/-- The dot products of the points with the axis, in the order of the points. -/
def projections (P : List (Vec2 K)) (a : Vec2 K) : List K := P.map (fun p => dot p a)

/-- The cross product of two plane vectors; it is positive when the second lies to the
left of the first. -/
def cross (u v : Vec2 K) : K := u.1 * v.2 - u.2 * v.1

/-- A convex polygon given by its vertices in boundary order: at least three vertices, every
vertex on the same side of (or on) the line of every edge, and not all vertices on one line
(which, for such a vertex list, is what a non-zero area means). The side may be the left one
for every edge (counter-clockwise order) or the right one for every edge (clockwise order). -/
def IsConvexPolygon (P : List (Vec2 K)) : Prop :=
  3 ≤ P.length ∧
  ((∀ e ∈ edges P, ∀ p ∈ P, 0 ≤ cross (e.2 - e.1) (p - e.1)) ∨
    (∀ e ∈ edges P, ∀ p ∈ P, cross (e.2 - e.1) (p - e.1) ≤ 0)) ∧
  ∃ e ∈ edges P, ∃ p ∈ P, cross (e.2 - e.1) (p - e.1) ≠ 0

/-- The closed region of a convex polygon: the convex hull of its vertices. -/
def region (P : List (Vec2 ℝ)) : Set (Vec2 ℝ) := convexHull ℝ {p : Vec2 ℝ | p ∈ P}

/-- The ways a call can end for its caller: with a value, with a reported `InvalidArgument`
failure, or without a defined result. -/
inductive Outcome (α : Type) where
  | returns (a : α)
  | invalidArgument
  | undefined

/-- The way a call of the embedding ends. The source has no statement that reports a failure:
a call returns a value (`some`) or has no defined result (`none`). -/
def outcome {α : Type} : Option α → Outcome α
  | some a => Outcome.returns a
  | none => Outcome.undefined

/-- The box with opposite corners `(x1, y1)` and `(x2, y2)` as a 4-corner point set. -/
def boxCorners (x1 y1 x2 y2 : K) : List (Vec2 K) := [(x1, y1), (x2, y1), (x2, y2), (x1, y2)]

/-- The point set `S + t`. -/
def translate (S : List (Vec2 K)) (t : Vec2 K) : List (Vec2 K) := S.map (fun p => p + t)

/-- Modelled from the spec: `enigma::offsetPoints` (from the included engine headers, absent
from the sources at hand). Section 4.6: the box or point polygon is translated into place. -/
def offsetPoints (points : List (Vec2 K)) (x y : K) : List (Vec2 K) := translate points (x, y)

/-- The polygon points of an instance after `enigma::transformPoints`, as the adapters compute
them. -/
def transformedPoints (engine : Engine K) (inst : object_collisions K) : List (Vec2 K) :=
  engine.transformPoints (engine.polygonPoints inst.polygon_index) inst.x inst.y
    inst.polygon_angle (engine.polygonCenter inst.polygon_index)
    inst.polygon_xscale inst.polygon_yscale

/-- The sprite that gives the box of an instance: the mask, or the sprite when there is no
mask. -/
def maskSprite (engine : Engine K) (inst : object_collisions K) : Sprite :=
  engine.sprites (if inst.mask_index ≠ -1 then inst.mask_index else inst.sprite_index)

/-- The ellipse segment that `get_polygon_ellipse_collision` builds for the edge with index `i`,
`size` being the number of normals: the points `points_poly[i]` and its successor (the first
point for the last index) give the angle passed to `getEllipseProjectionPoints`. -/
def ellipseSegment (sin cos : K → K) (angleBetweenVectors : Vec2 K → Vec2 K → K)
    (points_poly : List (Vec2 K)) (x2 y2 rx ry : K) (size i : Nat) : Option (List (Vec2 K)) :=
  match points_poly[i]?, (if i = size - 1 then points_poly[0]? else points_poly[i + 1]?) with
  | some point2, some point1 =>
    getEllipseProjectionPoints sin cos (-angleBetweenVectors point1 point2) x2 y2 rx ry
  | _, _ => none

/-- The box of `get_bbox_from_dimensions` under the other reading of its parameters (Section 9,
the offset variant): `width` and `height` are added to the corner `(x1, y1)`. -/
def offset_bbox (x1 y1 : K) (width height : Int) : List (Vec2 K) :=
  [(x1, y1), (x1 + (width : K), y1), (x1 + (width : K), y1 + (height : K)),
    (x1, y1 + (height : K))]

/-- An engine for examples: every polygon is the square `(0,0),(10,0),(10,10),(0,10)`, the
transformation leaves the points where they are, and `offsetPoints` is the translation. -/
def squareEngine : Engine ℚ where
  sprites := fun _ => { width := 0, height := 0 }
  polygonPoints := fun _ => boxCorners 0 0 10 10
  polygonCenter := fun _ => (5, 5)
  transformPoints := fun points _ _ _ _ _ _ => points
  offsetPoints := offsetPoints

/-- An instance for examples, at the origin, not rotated and not scaled. -/
def squareInst : object_collisions ℚ where
  x := 0
  y := 0
  mask_index := -1
  sprite_index := 0
  polygon_index := 0
  polygon_angle := 0
  polygon_xscale := 1
  polygon_yscale := 1

end Enigma

/-! ## The projection loop -/

namespace Enigma

variable {K : Type} [LinearOrderedField K]

theorem isFirstMin_snoc {ds : List K} {m : K} {i : Nat} (h : IsFirstMin ds m i) (c : K) :
    IsFirstMin (ds ++ [c]) (if m > c then c else m) (if m > c then ds.length else i) := by
  obtain ⟨h1, h2, h3⟩ := h
  have hi : i < ds.length := by
    by_contra hcon
    rw [List.getElem?_eq_none (by omega)] at h1
    exact absurd h1 (by simp)
  split_ifs with hc
  · refine ⟨by simp, ?_, ?_⟩
    · intro x hx
      rcases List.mem_append.1 hx with hx | hx
      · exact le_trans (le_of_lt hc) (h2 x hx)
      · simp at hx; rw [hx]
    · intro k hk x hkx
      rw [List.getElem?_append_left hk] at hkx
      exact lt_of_lt_of_le hc (h2 x (List.getElem?_mem hkx))
  · refine ⟨by rw [List.getElem?_append_left hi]; exact h1, ?_, ?_⟩
    · intro x hx
      rcases List.mem_append.1 hx with hx | hx
      · exact h2 x hx
      · simp at hx; rw [hx]; exact not_lt.1 hc
    · intro k hk x hkx
      rw [List.getElem?_append_left (by omega)] at hkx
      exact h3 k hk x hkx

theorem isFirstMax_snoc {ds : List K} {m : K} {i : Nat} (h : IsFirstMax ds m i) (c : K) :
    IsFirstMax (ds ++ [c]) (if c > m then c else m) (if c > m then ds.length else i) := by
  obtain ⟨h1, h2, h3⟩ := h
  have hi : i < ds.length := by
    by_contra hcon
    rw [List.getElem?_eq_none (by omega)] at h1
    exact absurd h1 (by simp)
  split_ifs with hc
  · refine ⟨by simp, ?_, ?_⟩
    · intro x hx
      rcases List.mem_append.1 hx with hx | hx
      · exact le_trans (h2 x hx) (le_of_lt hc)
      · simp at hx; rw [hx]
    · intro k hk x hkx
      rw [List.getElem?_append_left hk] at hkx
      exact lt_of_le_of_lt (h2 x (List.getElem?_mem hkx)) hc
  · refine ⟨by rw [List.getElem?_append_left hi]; exact h1, ?_, ?_⟩
    · intro x hx
      rcases List.mem_append.1 hx with hx | hx
      · exact h2 x hx
      · simp at hx; rw [hx]; exact not_lt.1 hc
    · intro k hk x hkx
      rw [List.getElem?_append_left (by omega)] at hkx
      exact h3 k hk x hkx

theorem projectionLoop_spec (axis : Vec2 K) (vs : List (Vec2 K)) :
    ∀ (pre : List (Vec2 K)) (st : K × K × Nat × Nat),
      IsFirstMin (projections pre axis) st.1 st.2.2.1 →
      IsFirstMax (projections pre axis) st.2.1 st.2.2.2 →
      IsFirstMin (projections (pre ++ vs) axis) (projectionLoop axis vs pre.length st).1
        (projectionLoop axis vs pre.length st).2.2.1 ∧
      IsFirstMax (projections (pre ++ vs) axis) (projectionLoop axis vs pre.length st).2.1
        (projectionLoop axis vs pre.length st).2.2.2 := by
  induction vs with
  | nil => intro pre st hmin hmax; simpa [projectionLoop] using ⟨hmin, hmax⟩
  | cons v vs ih =>
    intro pre st hmin hmax
    obtain ⟨mn, mx, mni, mxi⟩ := st
    have hlen : (pre ++ [v]).length = pre.length + 1 := by simp
    have hmin2 := isFirstMin_snoc hmin (dot v axis)
    have hmax2 := isFirstMax_snoc hmax (dot v axis)
    have key := ih (pre ++ [v])
      ((if mn > dot v axis then dot v axis else mn), (if dot v axis > mx then dot v axis else mx),
        (if mn > dot v axis then pre.length else mni), (if dot v axis > mx then pre.length else mxi))
      (by simpa [projections] using hmin2) (by simpa [projections] using hmax2)
    rw [hlen] at key
    simp only [List.append_assoc, List.singleton_append] at key
    simp only [projectionLoop]
    convert key using 3 <;> split_ifs <;> rfl

theorem getMinMaxProjection_spec (P : List (Vec2 K)) (a : Vec2 K) (hP : P ≠ []) :
    ∃ r, getMinMaxProjection P a = some r ∧
      IsFirstMin (projections P a) r.min_projection r.min_index ∧
      IsFirstMax (projections P a) r.max_projection r.max_index := by
  cases P with
  | nil => exact absurd rfl hP
  | cons v0 vs =>
    have h0min : IsFirstMin (projections [v0] a) (dot v0 a) 0 := by
      refine ⟨by simp [projections], ?_, ?_⟩
      · intro x hx; simp [projections] at hx; rw [hx]
      · intro k hk; omega
    have h0max : IsFirstMax (projections [v0] a) (dot v0 a) 0 := by
      refine ⟨by simp [projections], ?_, ?_⟩
      · intro x hx; simp [projections] at hx; rw [hx]
      · intro k hk; omega
    have key := projectionLoop_spec a vs [v0] (dot v0 a, dot v0 a, 0, 0) h0min h0max
    exact ⟨_, rfl, by simpa using key.1, by simpa using key.2⟩

/-! ## The extreme projections of the specification -/

theorem maxProjection_mem (P : List (Vec2 K)) (a : Vec2 K) (hP : P ≠ []) :
    ∃ p ∈ P, dot p a = maxProjection P a := by
  cases P with
  | nil => exact absurd rfl hP
  | cons p ps =>
    induction ps with
    | nil => exact ⟨p, by simp, rfl⟩
    | cons q qs ih =>
      obtain ⟨x, hx, hxe⟩ := ih (by simp)
      have hstep : maxProjection (p :: q :: qs) a = max (dot q a) (maxProjection (p :: qs) a) := rfl
      rcases le_total (dot q a) (maxProjection (p :: qs) a) with h | h
      · refine ⟨x, ?_, by rw [hstep, max_eq_right h, hxe]⟩
        simp only [List.mem_cons] at hx ⊢; tauto
      · exact ⟨q, by simp, by rw [hstep, max_eq_left h]⟩

theorem le_maxProjection (P : List (Vec2 K)) (a : Vec2 K) :
    ∀ x ∈ P, dot x a ≤ maxProjection P a := by
  cases P with
  | nil => simp
  | cons p ps =>
    induction ps with
    | nil => intro x hx; simp at hx; rw [hx]; exact le_refl _
    | cons q qs ih =>
      intro x hx
      have hstep : maxProjection (p :: q :: qs) a = max (dot q a) (maxProjection (p :: qs) a) := rfl
      rw [hstep]
      simp only [List.mem_cons] at hx
      rcases hx with rfl | rfl | hx
      · exact le_max_of_le_right (ih _ (by simp))
      · exact le_max_left _ _
      · exact le_max_of_le_right (ih _ (by simp [hx]))

theorem minProjection_mem (P : List (Vec2 K)) (a : Vec2 K) (hP : P ≠ []) :
    ∃ p ∈ P, dot p a = minProjection P a := by
  cases P with
  | nil => exact absurd rfl hP
  | cons p ps =>
    induction ps with
    | nil => exact ⟨p, by simp, rfl⟩
    | cons q qs ih =>
      obtain ⟨x, hx, hxe⟩ := ih (by simp)
      have hstep : minProjection (p :: q :: qs) a = min (dot q a) (minProjection (p :: qs) a) := rfl
      rcases le_total (dot q a) (minProjection (p :: qs) a) with h | h
      · exact ⟨q, by simp, by rw [hstep, min_eq_left h]⟩
      · refine ⟨x, ?_, by rw [hstep, min_eq_right h, hxe]⟩
        simp only [List.mem_cons] at hx ⊢; tauto

theorem minProjection_le (P : List (Vec2 K)) (a : Vec2 K) :
    ∀ x ∈ P, minProjection P a ≤ dot x a := by
  cases P with
  | nil => simp
  | cons p ps =>
    induction ps with
    | nil => intro x hx; simp at hx; rw [hx]; exact le_refl _
    | cons q qs ih =>
      intro x hx
      have hstep : minProjection (p :: q :: qs) a = min (dot q a) (minProjection (p :: qs) a) := rfl
      rw [hstep]
      simp only [List.mem_cons] at hx
      rcases hx with rfl | rfl | hx
      · exact min_le_of_right_le (ih _ (by simp))
      · exact min_le_left _ _
      · exact min_le_of_right_le (ih _ (by simp [hx]))

theorem mem_projections {P : List (Vec2 K)} {a : Vec2 K} {x : K} :
    x ∈ projections P a ↔ ∃ p ∈ P, dot p a = x := by
  simp [projections]

/-- The record returned by the code holds the extreme projections of the specification. -/
theorem getMinMaxProjection_eq (P : List (Vec2 K)) (a : Vec2 K) (hP : P ≠ []) :
    ∃ r, getMinMaxProjection P a = some r ∧
      r.min_projection = minProjection P a ∧ r.max_projection = maxProjection P a := by
  obtain ⟨r, hr, hmin, hmax⟩ := getMinMaxProjection_spec P a hP
  refine ⟨r, hr, ?_, ?_⟩
  · apply le_antisymm
    · obtain ⟨p, hp, hpe⟩ := minProjection_mem P a hP
      rw [← hpe]; exact hmin.2.1 _ (mem_projections.2 ⟨p, hp, rfl⟩)
    · obtain ⟨p, hp, hpe⟩ := mem_projections.1 (List.getElem?_mem hmin.1)
      rw [← hpe]; exact minProjection_le P a p hp
  · apply le_antisymm
    · obtain ⟨p, hp, hpe⟩ := mem_projections.1 (List.getElem?_mem hmax.1)
      rw [← hpe]; exact le_maxProjection P a p hp
    · obtain ⟨p, hp, hpe⟩ := maxProjection_mem P a hP
      rw [← hpe]; exact hmax.2.1 _ (mem_projections.2 ⟨p, hp, rfl⟩)

theorem maxProjection_lt_iff (P : List (Vec2 K)) (a : Vec2 K) (hP : P ≠ []) (c : K) :
    maxProjection P a < c ↔ ∀ p ∈ P, dot p a < c := by
  constructor
  · intro h p hp; exact lt_of_le_of_lt (le_maxProjection P a p hp) h
  · intro h; obtain ⟨p, hp, hpe⟩ := maxProjection_mem P a hP; rw [← hpe]; exact h p hp

theorem lt_minProjection_iff (P : List (Vec2 K)) (a : Vec2 K) (hP : P ≠ []) (c : K) :
    c < minProjection P a ↔ ∀ p ∈ P, c < dot p a := by
  constructor
  · intro h p hp; exact lt_of_lt_of_le h (minProjection_le P a p hp)
  · intro h; obtain ⟨p, hp, hpe⟩ := minProjection_mem P a hP; rw [← hpe]; exact h p hp

/-- An axis separates two non-empty point sets exactly when every projection of one of them
lies strictly below every projection of the other. -/
theorem separates_iff (A B : List (Vec2 K)) (n : Vec2 K) (hA : A ≠ []) (hB : B ≠ []) :
    Separates A B n ↔
      (∀ p ∈ A, ∀ q ∈ B, dot p n < dot q n) ∨ (∀ p ∈ A, ∀ q ∈ B, dot q n < dot p n) := by
  unfold Separates
  rw [maxProjection_lt_iff A n hA, maxProjection_lt_iff B n hB]
  constructor
  · rintro (h | h)
    · left; intro p hp q hq; exact (lt_minProjection_iff B n hB _).1 (h p hp) q hq
    · right; intro p hp q hq; exact (lt_minProjection_iff A n hA _).1 (h q hq) p hp
  · rintro (h | h)
    · left; intro p hp; exact (lt_minProjection_iff B n hB _).2 (h p hp)
    · right; intro q hq; exact (lt_minProjection_iff A n hA _).2 (fun p hp => h p hp q hq)

/-! ## The two loops of `get_polygon_polygon_collision` -/

theorem separationLoop_eq (A B : List (Vec2 K)) (hA : A ≠ []) (hB : B ≠ [])
    (ns : List (Vec2 K)) :
    separationLoop A B ns false = some (ns.any (fun n => decide (Separates A B n))) := by
  induction ns with
  | nil => rfl
  | cons n rest ih =>
    obtain ⟨r1, h1, h1min, h1max⟩ := getMinMaxProjection_eq A n hA
    obtain ⟨r2, h2, h2min, h2max⟩ := getMinMaxProjection_eq B n hB
    simp only [separationLoop, h1, h2, h1min, h1max, h2min, h2max, List.any_cons, ih]
    by_cases hs : Separates A B n
    · have : (decide (maxProjection A n < minProjection B n) ||
          decide (maxProjection B n < minProjection A n)) = true := by
        simpa [Separates] using hs
      simp [this, hs]
    · have : (decide (maxProjection A n < minProjection B n) ||
          decide (maxProjection B n < minProjection A n)) = false := by
        simpa [Separates] using hs
      simp [this, hs]

/-- The two loops with their `break` give the result of the scan of every axis. -/
theorem collision_eq_scan (cn : List (Vec2 K) → List (Vec2 K)) (A B : List (Vec2 K))
    (hA : A ≠ []) (hB : B ≠ []) :
    get_polygon_polygon_collision cn A B = some (scanEveryAxis cn A B) := by
  unfold get_polygon_polygon_collision scanEveryAxis
  simp only [separationLoop_eq A B hA hB (cn A)]
  cases h1 : (cn A).any (fun n => decide (Separates A B n))
  · simp only [Bool.not_false, if_true, separationLoop_eq A B hA hB (cn B)]
    cases h2 : (cn B).any (fun n => decide (Separates A B n))
    · simp only [Bool.not_false, if_true, List.all_append]
      congr 1
      simp only [List.any_eq_false, decide_eq_true_eq] at h1 h2
      symm
      simp only [Bool.and_eq_true, List.all_eq_true, Bool.not_eq_true', decide_eq_false_iff_not]
      exact ⟨h1, h2⟩
    · simp only [Bool.not_true, List.all_append]
      simp only [List.any_eq_true, decide_eq_true_eq] at h2
      obtain ⟨n, hn, hs⟩ := h2
      have : (cn B).all (fun n => !decide (Separates A B n)) = false := by
        rw [List.all_eq_false]; exact ⟨n, hn, by simp [hs]⟩
      simp [this]
  · simp only [Bool.not_true, List.all_append]
    simp only [List.any_eq_true, decide_eq_true_eq] at h1
    obtain ⟨n, hn, hs⟩ := h1
    have : (cn A).all (fun n => !decide (Separates A B n)) = false := by
      rw [List.all_eq_false]; exact ⟨n, hn, by simp [hs]⟩
    simp [this]

/-- The result in terms of the axes: `true` exactly when no axis separates. -/
theorem collision_eq_true_iff (cn : List (Vec2 K) → List (Vec2 K)) (A B : List (Vec2 K))
    (hA : A ≠ []) (hB : B ≠ []) :
    get_polygon_polygon_collision cn A B = some true ↔
      ∀ n, n ∈ cn A ∨ n ∈ cn B → ¬ Separates A B n := by
  rw [collision_eq_scan cn A B hA hB]
  simp only [scanEveryAxis, Option.some.injEq, List.all_eq_true, List.mem_append,
    Bool.not_eq_true', decide_eq_false_iff_not]

theorem collision_eq_false_iff (cn : List (Vec2 K) → List (Vec2 K)) (A B : List (Vec2 K))
    (hA : A ≠ []) (hB : B ≠ []) :
    get_polygon_polygon_collision cn A B = some false ↔
      ∃ n, (n ∈ cn A ∨ n ∈ cn B) ∧ Separates A B n := by
  have h := collision_eq_true_iff cn A B hA hB
  rw [collision_eq_scan cn A B hA hB] at h ⊢
  constructor
  · intro hf
    by_contra hcon
    push_neg at hcon
    have := h.2 hcon
    rw [this] at hf
    exact absurd hf (by simp)
  · rintro ⟨n, hn, hs⟩
    cases hb : scanEveryAxis cn A B
    · rfl
    · exact absurd hs (h.1 (by rw [hb]) n hn)

theorem separates_symm (A B : List (Vec2 K)) (n : Vec2 K) :
    Separates A B n ↔ Separates B A n := by
  unfold Separates; exact or_comm

theorem isLinearMap_dot (n : Vec2 K) : IsLinearMap K (fun p : Vec2 K => dot p n) := by
  refine ⟨?_, ?_⟩
  · intro p q; simp only [dot, Prod.fst_add, Prod.snd_add]; ring
  · intro c p; simp only [dot, Prod.smul_fst, Prod.smul_snd, smul_eq_mul]; ring

/-- Every point of the convex hull of a point set projects between the extreme projections
of the set. -/
theorem projection_mem_hull (P : List (Vec2 K)) (n x : Vec2 K)
    (hx : x ∈ convexHull K {p : Vec2 K | p ∈ P}) :
    minProjection P n ≤ dot x n ∧ dot x n ≤ maxProjection P n := by
  constructor
  · have hsub : {p : Vec2 K | p ∈ P} ⊆ {p : Vec2 K | minProjection P n ≤ dot p n} :=
      fun p hp => minProjection_le P n p hp
    exact convexHull_min hsub (convex_halfSpace_ge (isLinearMap_dot n) _) hx
  · have hsub : {p : Vec2 K | p ∈ P} ⊆ {p : Vec2 K | dot p n ≤ maxProjection P n} :=
      fun p hp => le_maxProjection P n p hp
    exact convexHull_min hsub (convex_halfSpace_le (isLinearMap_dot n) _) hx

/-- C1: for non-empty point sets the two loops of `get_polygon_polygon_collision`, which stop at
the first separating axis, return what the scan of every axis of `normals(A)` followed by
`normals(B)` returns: `true` exactly when no such axis has `max(A) < min(B)` or
`max(B) < min(A)`. It holds whatever `computeNormals` computes. -/
theorem collision_iff_no_separating_axis (cn : List (Vec2 K) → List (Vec2 K))
    (A B : List (Vec2 K)) (hA : A ≠ []) (hB : B ≠ []) :
    get_polygon_polygon_collision cn A B = some (scanEveryAxis cn A B) ∧
    (get_polygon_polygon_collision cn A B = some true ↔
      ∀ n ∈ cn A ++ cn B,
        ¬ (maxProjection A n < minProjection B n ∨ maxProjection B n < minProjection A n)) := by
  refine ⟨collision_eq_scan cn A B hA hB, ?_⟩
  rw [collision_eq_true_iff cn A B hA hB]
  simp only [List.mem_append, Separates]

/-- A common point of the two convex hulls rules out every separating axis. -/
theorem collision_of_mem_hulls (cn : List (Vec2 K) → List (Vec2 K))
    (A B : List (Vec2 K)) (hA : A ≠ []) (hB : B ≠ []) (x : Vec2 K)
    (hxA : x ∈ convexHull K {p : Vec2 K | p ∈ A})
    (hxB : x ∈ convexHull K {p : Vec2 K | p ∈ B}) :
    get_polygon_polygon_collision cn A B = some true := by
  rw [collision_eq_true_iff cn A B hA hB]
  intro n _ hs
  have h1 := projection_mem_hull A n x hxA
  have h2 := projection_mem_hull B n x hxB
  rcases hs with hs | hs
  · exact absurd (lt_of_le_of_lt h1.2 hs) (not_lt.2 h2.1)
  · exact absurd (lt_of_le_of_lt h2.2 hs) (not_lt.2 h1.1)

/-- C2: two non-empty point sets whose convex hulls (the closed regions of convex polygons)
have a point in common are reported as colliding, whatever the axes are. -/
theorem collision_of_common_point (cn : List (Vec2 K) → List (Vec2 K))
    (A B : List (Vec2 K)) (hA : A ≠ []) (hB : B ≠ []) (x : Vec2 K)
    (hxA : x ∈ convexHull K {p : Vec2 K | p ∈ A})
    (hxB : x ∈ convexHull K {p : Vec2 K | p ∈ B}) :
    get_polygon_polygon_collision cn A B = some true :=
  collision_of_mem_hulls cn A B hA hB x hxA hxB

/-- C5: symmetry. For non-empty point sets the result does not depend on the order of the two
arguments, although the normals of the first are tested first. -/
theorem collision_symm (cn : List (Vec2 K) → List (Vec2 K))
    (A B : List (Vec2 K)) (hA : A ≠ []) (hB : B ≠ []) :
    get_polygon_polygon_collision cn A B = get_polygon_polygon_collision cn B A := by
  have h1 := collision_eq_true_iff cn A B hA hB
  have h2 := collision_eq_true_iff cn B A hB hA
  have h : get_polygon_polygon_collision cn A B = some true ↔
      get_polygon_polygon_collision cn B A = some true := by
    rw [h1, h2]
    constructor
    · intro h n hn; rw [← separates_symm]; exact h n hn.symm
    · intro h n hn; rw [separates_symm]; exact h n hn.symm
  rw [collision_eq_scan cn A B hA hB, collision_eq_scan cn B A hB hA] at h ⊢
  cases hb1 : scanEveryAxis cn A B <;> cases hb2 : scanEveryAxis cn B A <;>
    simp [hb1, hb2] at h ⊢

/-- C7: for a non-empty point set `getMinMaxProjection` returns the minimum and the maximum of
the dot products with the axis, and `min_index` (`max_index`) is the smallest index whose dot
product is that minimum (maximum). -/
theorem getMinMaxProjection_extremes (P : List (Vec2 K)) (a : Vec2 K) (hP : P ≠ []) :
    ∃ r, getMinMaxProjection P a = some r ∧
      (∀ p ∈ P, r.min_projection ≤ dot p a) ∧
      (∀ p ∈ P, dot p a ≤ r.max_projection) ∧
      (P.map (fun p => dot p a))[r.min_index]? = some r.min_projection ∧
      (P.map (fun p => dot p a))[r.max_index]? = some r.max_projection ∧
      (∀ j, j < r.min_index → (P.map (fun p => dot p a))[j]? ≠ some r.min_projection) ∧
      (∀ j, j < r.max_index → (P.map (fun p => dot p a))[j]? ≠ some r.max_projection) := by
  obtain ⟨r, hr, hmin, hmax⟩ := getMinMaxProjection_spec P a hP
  refine ⟨r, hr, ?_, ?_, hmin.1, hmax.1, ?_, ?_⟩
  · intro p hp; exact hmin.2.1 _ (mem_projections.2 ⟨p, hp, rfl⟩)
  · intro p hp; exact hmax.2.1 _ (mem_projections.2 ⟨p, hp, rfl⟩)
  · intro j hj hcon; exact lt_irrefl _ (hmin.2.2 j hj _ hcon)
  · intro j hj hcon; exact lt_irrefl _ (hmax.2.2 j hj _ hcon)

/-- C8: for a non-empty point set the record returned by `getMinMaxProjection` has
`min_projection ≤ max_projection`, and both indices are smaller than the number of points. -/
theorem getMinMaxProjection_bounds (P : List (Vec2 K)) (a : Vec2 K) (hP : P ≠ []) :
    ∃ r, getMinMaxProjection P a = some r ∧
      r.min_projection ≤ r.max_projection ∧
      r.min_index < P.length ∧ r.max_index < P.length := by
  obtain ⟨r, hr, hmin, hmax⟩ := getMinMaxProjection_spec P a hP
  have hlen : (projections P a).length = P.length := by simp [projections]
  have hi : ∀ (i : Nat) (m : K), (projections P a)[i]? = some m → i < P.length := by
    intro i m h
    by_contra hcon
    rw [List.getElem?_eq_none (by omega)] at h
    exact absurd h (by simp)
  refine ⟨r, hr, ?_, hi _ _ hmin.1, hi _ _ hmax.1⟩
  exact hmax.2.1 _ (List.getElem?_mem hmin.1)

/-! ## Translation -/

theorem dot_add_left (p t n : Vec2 K) : dot (p + t) n = dot p n + dot t n := by
  simp only [dot, Prod.fst_add, Prod.snd_add]; ring

theorem edgesFrom_translate (t first : Vec2 K) (L : List (Vec2 K)) :
    edgesFrom (first + t) (translate L t) =
      (edgesFrom first L).map (fun e => (e.1 + t, e.2 + t)) := by
  induction L with
  | nil => rfl
  | cons p ps ih =>
    cases ps with
    | nil => rfl
    | cons q qs =>
      have h : translate (p :: q :: qs) t = (p + t) :: translate (q :: qs) t := rfl
      rw [h]
      have h2 : translate (q :: qs) t = (q + t) :: translate qs t := rfl
      rw [h2, edgesFrom, ← h2, ih]
      rfl

theorem computeNormals_translate (P : List (Vec2 K)) (t : Vec2 K) :
    computeNormals (translate P t) = computeNormals P := by
  unfold computeNormals
  have hlen : (translate P t).length = P.length := by simp [translate]
  rw [hlen]
  split_ifs with h
  · rfl
  · cases P with
    | nil => rfl
    | cons p ps =>
      have h1 : translate (p :: ps) t = (p + t) :: translate ps t := rfl
      have h2 : edges ((p + t) :: translate ps t) = edgesFrom (p + t) (translate (p :: ps) t) := rfl
      rw [h1, h2, edgesFrom_translate]
      simp only [edges, List.map_map]
      apply List.map_congr_left
      intro e _
      simp only [Function.comp, add_sub_add_right_eq_sub]

theorem separates_translate (A B : List (Vec2 K)) (t n : Vec2 K) (hA : A ≠ []) (hB : B ≠ []) :
    Separates (translate A t) (translate B t) n ↔ Separates A B n := by
  have hA2 : translate A t ≠ [] := by simpa [translate] using hA
  have hB2 : translate B t ≠ [] := by simpa [translate] using hB
  rw [separates_iff _ _ n hA2 hB2, separates_iff _ _ n hA hB]
  simp only [translate, List.mem_map, forall_exists_index, and_imp, forall_apply_eq_imp_iff₂,
    dot_add_left, add_lt_add_iff_right]

/-- C6: translation invariance. Adding the same vector to every point of both non-empty point
sets does not change the result; the normals are those of Section 4.2, which depend on the
differences of consecutive vertices only. -/
theorem collision_translate (A B : List (Vec2 K)) (t : Vec2 K) (hA : A ≠ []) (hB : B ≠ []) :
    get_polygon_polygon_collision computeNormals (translate A t) (translate B t) =
      get_polygon_polygon_collision computeNormals A B := by
  have hA2 : translate A t ≠ [] := by simpa [translate] using hA
  have hB2 : translate B t ≠ [] := by simpa [translate] using hB
  rw [collision_eq_scan _ _ _ hA2 hB2, collision_eq_scan _ _ _ hA hB]
  unfold scanEveryAxis
  rw [computeNormals_translate, computeNormals_translate]
  simp only [separates_translate A B t _ hA hB]

/-! ## Axis-aligned boxes -/

theorem dot_scale (p n : Vec2 K) (c : K) : dot p (c * n.1, c * n.2) = c * dot p n := by
  simp only [dot]; ring

/-- Scaling an axis by a non-zero factor does not change whether it separates. -/
theorem separates_scale (A B : List (Vec2 K)) (n : Vec2 K) (c : K) (hc : c ≠ 0)
    (hA : A ≠ []) (hB : B ≠ []) :
    Separates A B (c * n.1, c * n.2) ↔ Separates A B n := by
  rw [separates_iff _ _ _ hA hB, separates_iff _ _ _ hA hB]
  simp only [dot_scale]
  rcases lt_or_gt_of_ne hc with h | h
  · simp only [mul_lt_mul_left_of_neg h]
    exact or_comm
  · simp only [mul_lt_mul_left h]

theorem computeNormals_boxCorners (x1 y1 x2 y2 : K) :
    computeNormals (boxCorners x1 y1 x2 y2) =
      [(0, -(x2 - x1)), (y2 - y1, 0), (0, -(x1 - x2)), (y1 - y2, 0)] := by
  simp [computeNormals, boxCorners, edges, edgesFrom, perp]

theorem separates_boxCorners_x (x1 y1 x2 y2 u1 v1 u2 v2 : K) (hx : x1 < x2) (hu : u1 < u2) :
    Separates (boxCorners x1 y1 x2 y2) (boxCorners u1 v1 u2 v2) (1, 0) ↔ x2 < u1 ∨ u2 < x1 := by
  rw [separates_iff _ _ _ (by simp [boxCorners]) (by simp [boxCorners])]
  simp only [boxCorners, List.mem_cons, List.mem_singleton, List.not_mem_nil, or_false, dot,
    forall_eq_or_imp, forall_eq, mul_one, mul_zero, add_zero]
  constructor
  · rintro (h | h)
    · left; exact h.2.1.1
    · right; exact h.1.2.1
  · rintro (h | h)
    · left; refine ⟨⟨?_, ?_, ?_, ?_⟩, ⟨?_, ?_, ?_, ?_⟩, ⟨?_, ?_, ?_, ?_⟩, ⟨?_, ?_, ?_, ?_⟩⟩ <;> linarith
    · right; refine ⟨⟨?_, ?_, ?_, ?_⟩, ⟨?_, ?_, ?_, ?_⟩, ⟨?_, ?_, ?_, ?_⟩, ⟨?_, ?_, ?_, ?_⟩⟩ <;> linarith

theorem separates_boxCorners_y (x1 y1 x2 y2 u1 v1 u2 v2 : K) (hy : y1 < y2) (hv : v1 < v2) :
    Separates (boxCorners x1 y1 x2 y2) (boxCorners u1 v1 u2 v2) (0, 1) ↔ y2 < v1 ∨ v2 < y1 := by
  rw [separates_iff _ _ _ (by simp [boxCorners]) (by simp [boxCorners])]
  simp only [boxCorners, List.mem_cons, List.mem_singleton, List.not_mem_nil, or_false, dot,
    forall_eq_or_imp, forall_eq, mul_one, mul_zero, zero_add]
  constructor
  · rintro (h | h)
    · left; exact h.2.2.1.1
    · right; exact h.1.2.2.1
  · rintro (h | h)
    · left; refine ⟨⟨?_, ?_, ?_, ?_⟩, ⟨?_, ?_, ?_, ?_⟩, ⟨?_, ?_, ?_, ?_⟩, ⟨?_, ?_, ?_, ?_⟩⟩ <;> linarith
    · right; refine ⟨⟨?_, ?_, ?_, ?_⟩, ⟨?_, ?_, ?_, ?_⟩, ⟨?_, ?_, ?_, ?_⟩, ⟨?_, ?_, ?_, ?_⟩⟩ <;> linarith

/-- The overlap test on two axis-aligned boxes is the interval test on both coordinates. -/
theorem box_collision_iff (x1 y1 x2 y2 u1 v1 u2 v2 : K)
    (hx : x1 < x2) (hy : y1 < y2) (hu : u1 < u2) (hv : v1 < v2) :
    get_polygon_polygon_collision computeNormals
        (boxCorners x1 y1 x2 y2) (boxCorners u1 v1 u2 v2) = some true ↔
      (x1 ≤ u2 ∧ u1 ≤ x2) ∧ (y1 ≤ v2 ∧ v1 ≤ y2) := by
  have hA : boxCorners x1 y1 x2 y2 ≠ [] := by simp [boxCorners]
  have hB : boxCorners u1 v1 u2 v2 ≠ [] := by simp [boxCorners]
  have sx : ∀ c : K, c ≠ 0 →
      (Separates (boxCorners x1 y1 x2 y2) (boxCorners u1 v1 u2 v2) (c, 0) ↔ x2 < u1 ∨ u2 < x1) := by
    intro c hc
    have := separates_scale (boxCorners x1 y1 x2 y2) (boxCorners u1 v1 u2 v2) (1, 0) c hc hA hB
    simp only [mul_one, mul_zero] at this
    rw [this]; exact separates_boxCorners_x _ _ _ _ _ _ _ _ hx hu
  have sy : ∀ c : K, c ≠ 0 →
      (Separates (boxCorners x1 y1 x2 y2) (boxCorners u1 v1 u2 v2) (0, c) ↔ y2 < v1 ∨ v2 < y1) := by
    intro c hc
    have := separates_scale (boxCorners x1 y1 x2 y2) (boxCorners u1 v1 u2 v2) (0, 1) c hc hA hB
    simp only [mul_one, mul_zero] at this
    rw [this]; exact separates_boxCorners_y _ _ _ _ _ _ _ _ hy hv
  rw [collision_eq_true_iff _ _ _ hA hB, computeNormals_boxCorners, computeNormals_boxCorners]
  constructor
  · intro h
    have h1 := h (y2 - y1, 0) (by simp)
    have h2 := h (0, -(x2 - x1)) (by simp)
    rw [sx _ (by intro hc; linarith)] at h1
    rw [sy _ (by intro hc; linarith)] at h2
    push_neg at h1 h2
    exact ⟨⟨h1.2, h1.1⟩, ⟨h2.2, h2.1⟩⟩
  · rintro ⟨⟨a1, a2⟩, ⟨b1, b2⟩⟩ n hn
    simp only [List.mem_cons, List.mem_singleton, List.not_mem_nil, or_false] at hn
    rcases hn with (rfl | rfl | rfl | rfl) | (rfl | rfl | rfl | rfl)
    · rw [sy _ (by intro hc; linarith)]; push_neg; exact ⟨b2, b1⟩
    · rw [sx _ (by intro hc; linarith)]; push_neg; exact ⟨a2, a1⟩
    · rw [sy _ (by intro hc; linarith)]; push_neg; exact ⟨b2, b1⟩
    · rw [sx _ (by intro hc; linarith)]; push_neg; exact ⟨a2, a1⟩
    · rw [sy _ (by intro hc; linarith)]; push_neg; exact ⟨b2, b1⟩
    · rw [sx _ (by intro hc; linarith)]; push_neg; exact ⟨a2, a1⟩
    · rw [sy _ (by intro hc; linarith)]; push_neg; exact ⟨b2, b1⟩
    · rw [sx _ (by intro hc; linarith)]; push_neg; exact ⟨a2, a1⟩

/-- The result on non-empty point sets is never undefined. -/
theorem collision_isSome (cn : List (Vec2 K) → List (Vec2 K)) (A B : List (Vec2 K))
    (hA : A ≠ []) (hB : B ≠ []) :
    get_polygon_polygon_collision cn A B = some true ∨
      get_polygon_polygon_collision cn A B = some false := by
  rw [collision_eq_scan cn A B hA hB]
  cases scanEveryAxis cn A B <;> simp

/-- C10: for two axis-aligned boxes given by their four corners
`(x1,y1),(x2,y1),(x2,y2),(x1,y2)` with `x1 < x2` and `y1 < y2`, the result is `true` exactly
when the closed `x`-intervals intersect and the closed `y`-intervals intersect, and `false`
otherwise. The normals are those of Section 4.2. -/
theorem box_collision_iff_intervals_meet (x1 y1 x2 y2 u1 v1 u2 v2 : K)
    (hx : x1 < x2) (hy : y1 < y2) (hu : u1 < u2) (hv : v1 < v2) :
    (get_polygon_polygon_collision computeNormals
        (boxCorners x1 y1 x2 y2) (boxCorners u1 v1 u2 v2) = some true ↔
      (Set.Icc x1 x2 ∩ Set.Icc u1 u2).Nonempty ∧ (Set.Icc y1 y2 ∩ Set.Icc v1 v2).Nonempty) ∧
    (get_polygon_polygon_collision computeNormals
        (boxCorners x1 y1 x2 y2) (boxCorners u1 v1 u2 v2) = some false ↔
      ¬ ((Set.Icc x1 x2 ∩ Set.Icc u1 u2).Nonempty ∧ (Set.Icc y1 y2 ∩ Set.Icc v1 v2).Nonempty)) := by
  have key := box_collision_iff x1 y1 x2 y2 u1 v1 u2 v2 hx hy hu hv
  have hI : ((Set.Icc x1 x2 ∩ Set.Icc u1 u2).Nonempty ∧ (Set.Icc y1 y2 ∩ Set.Icc v1 v2).Nonempty) ↔
      (x1 ≤ u2 ∧ u1 ≤ x2) ∧ (y1 ≤ v2 ∧ v1 ≤ y2) := by
    rw [Set.Icc_inter_Icc, Set.Icc_inter_Icc, Set.nonempty_Icc, Set.nonempty_Icc]
    simp only [sup_le_iff, le_inf_iff]
    constructor
    · rintro ⟨⟨⟨_, a⟩, ⟨b, _⟩⟩, ⟨⟨_, c⟩, ⟨d, _⟩⟩⟩; exact ⟨⟨b, a⟩, ⟨d, c⟩⟩
    · rintro ⟨⟨a, b⟩, ⟨c, d⟩⟩; exact ⟨⟨⟨hx.le, b⟩, ⟨a, hu.le⟩⟩, ⟨⟨hy.le, d⟩, ⟨c, hv.le⟩⟩⟩
  rw [hI, ← key]
  refine ⟨Iff.rfl, ?_⟩
  rcases collision_isSome computeNormals (boxCorners x1 y1 x2 y2) (boxCorners u1 v1 u2 v2)
    (by simp [boxCorners]) (by simp [boxCorners]) with h | h <;> simp [h]

theorem ne_nil_of_getMinMaxProjection {P : List (Vec2 K)} {a : Vec2 K} {r : MinMaxProjection K}
    (h : getMinMaxProjection P a = some r) : P ≠ [] := by
  rintro rfl
  simp [getMinMaxProjection] at h

theorem min_le_max_of_getMinMaxProjection {P : List (Vec2 K)} {a : Vec2 K}
    {r : MinMaxProjection K} (h : getMinMaxProjection P a = some r) :
    r.min_projection ≤ r.max_projection := by
  obtain ⟨s, hs, hmin, hmax⟩ := getMinMaxProjection_spec P a (ne_nil_of_getMinMaxProjection h)
  rw [h] at hs
  cases hs
  exact hmax.2.1 _ (List.getElem?_mem hmin.1)

/-- C9: touching counts as collision. When the projections of the two shapes on an axis only
touch (`max(A) = min(B)` or `max(B) = min(A)`), the flag `isSeparated` computed for that axis
is `false` and the loop goes on to the next axis; and the boxes `(0,0)-(10,10)` and
`(10,0)-(20,10)`, which share an edge only, are reported as colliding, whatever
`computeNormals` computes. -/
theorem touching_is_collision (cn : List (Vec2 K) → List (Vec2 K))
    (A B : List (Vec2 K)) (n : Vec2 K) (rest : List (Vec2 K))
    (flag : Bool) (r1 r2 : MinMaxProjection K)
    (h1 : getMinMaxProjection A n = some r1) (h2 : getMinMaxProjection B n = some r2)
    (htouch : r1.max_projection = r2.min_projection ∨ r2.max_projection = r1.min_projection) :
    (decide (r1.max_projection < r2.min_projection) ||
        decide (r2.max_projection < r1.min_projection)) = false ∧
    separationLoop A B (n :: rest) flag = separationLoop A B rest false ∧
    get_polygon_polygon_collision cn
      (boxCorners (0 : K) 0 10 10) (boxCorners (10 : K) 0 20 10) = some true := by
  have hle1 := min_le_max_of_getMinMaxProjection h1
  have hle2 := min_le_max_of_getMinMaxProjection h2
  have hflag : (decide (r1.max_projection < r2.min_projection) ||
      decide (r2.max_projection < r1.min_projection)) = false := by
    rw [Bool.or_eq_false_iff, decide_eq_false_iff_not, decide_eq_false_iff_not, not_lt, not_lt]
    rcases htouch with h | h
    · exact ⟨h ▸ le_refl _, by rw [← h] at hle2; exact le_trans hle1 hle2⟩
    · exact ⟨by rw [← h] at hle1; exact le_trans hle2 hle1, h ▸ le_refl _⟩
  refine ⟨hflag, ?_, ?_⟩
  · simp only [separationLoop, h1, h2, hflag]
    rfl
  · exact collision_of_mem_hulls cn _ _ (List.cons_ne_nil _ _) (List.cons_ne_nil _ _) (10, 0)
      (subset_convexHull K _ (by simp [boxCorners])) (subset_convexHull K _ (by simp [boxCorners]))

/-- Witness: the boxes `(0,0)-(10,10)` and
`(5,5)-(15,15)` with the normals of Section 4.2. -/
theorem collision_iff_no_separating_axis_witness :
    (boxCorners (0 : ℚ) 0 10 10 ≠ [] ∧ boxCorners (5 : ℚ) 5 15 15 ≠ []) ∧
    (get_polygon_polygon_collision computeNormals
        (boxCorners (0 : ℚ) 0 10 10) (boxCorners (5 : ℚ) 5 15 15) =
      some (scanEveryAxis computeNormals (boxCorners (0 : ℚ) 0 10 10) (boxCorners (5 : ℚ) 5 15 15)) ∧
    (get_polygon_polygon_collision computeNormals
        (boxCorners (0 : ℚ) 0 10 10) (boxCorners (5 : ℚ) 5 15 15) = some true ↔
      ∀ n ∈ computeNormals (boxCorners (0 : ℚ) 0 10 10) ++
          computeNormals (boxCorners (5 : ℚ) 5 15 15),
        ¬ (maxProjection (boxCorners (0 : ℚ) 0 10 10) n <
              minProjection (boxCorners (5 : ℚ) 5 15 15) n ∨
            maxProjection (boxCorners (5 : ℚ) 5 15 15) n <
              minProjection (boxCorners (0 : ℚ) 0 10 10) n))) :=
  ⟨⟨List.cons_ne_nil _ _, List.cons_ne_nil _ _⟩,
    collision_iff_no_separating_axis computeNormals _ _
      (List.cons_ne_nil _ _) (List.cons_ne_nil _ _)⟩

/-- Witness: the boxes `(0,0)-(10,10)` and `(10,10)-(20,20)`
share the corner `(10,10)`. -/
theorem collision_of_common_point_witness :
    (boxCorners (0 : ℚ) 0 10 10 ≠ [] ∧ boxCorners (10 : ℚ) 10 20 20 ≠ [] ∧
      ((10, 10) : Vec2 ℚ) ∈ convexHull ℚ {p : Vec2 ℚ | p ∈ boxCorners (0 : ℚ) 0 10 10} ∧
      ((10, 10) : Vec2 ℚ) ∈ convexHull ℚ {p : Vec2 ℚ | p ∈ boxCorners (10 : ℚ) 10 20 20}) ∧
    get_polygon_polygon_collision computeNormals
      (boxCorners (0 : ℚ) 0 10 10) (boxCorners (10 : ℚ) 10 20 20) = some true :=
  have hA : ((10, 10) : Vec2 ℚ) ∈ convexHull ℚ {p : Vec2 ℚ | p ∈ boxCorners (0 : ℚ) 0 10 10} :=
    subset_convexHull ℚ _ (by simp [boxCorners])
  have hB : ((10, 10) : Vec2 ℚ) ∈ convexHull ℚ {p : Vec2 ℚ | p ∈ boxCorners (10 : ℚ) 10 20 20} :=
    subset_convexHull ℚ _ (by simp [boxCorners])
  ⟨⟨List.cons_ne_nil _ _, List.cons_ne_nil _ _, hA, hB⟩,
    collision_of_common_point computeNormals _ _
      (List.cons_ne_nil _ _) (List.cons_ne_nil _ _) (10, 10) hA hB⟩

/-- Witness: the boxes `(0,0)-(10,10)` and `(20,20)-(30,30)`. -/
theorem collision_symm_witness :
    (boxCorners (0 : ℚ) 0 10 10 ≠ [] ∧ boxCorners (20 : ℚ) 20 30 30 ≠ []) ∧
    get_polygon_polygon_collision computeNormals
        (boxCorners (0 : ℚ) 0 10 10) (boxCorners (20 : ℚ) 20 30 30) =
      get_polygon_polygon_collision computeNormals
        (boxCorners (20 : ℚ) 20 30 30) (boxCorners (0 : ℚ) 0 10 10) :=
  ⟨⟨List.cons_ne_nil _ _, List.cons_ne_nil _ _⟩,
    collision_symm computeNormals _ _ (List.cons_ne_nil _ _) (List.cons_ne_nil _ _)⟩

/-- Witness: a triangle and a box moved by `(3, -4)`. -/
theorem collision_translate_witness :
    (([(0, 0), (4, 0), (0, 3)] : List (Vec2 ℚ)) ≠ [] ∧ boxCorners (1 : ℚ) 1 2 2 ≠ []) ∧
    get_polygon_polygon_collision computeNormals
        (translate [(0, 0), (4, 0), (0, 3)] (3, -4)) (translate (boxCorners (1 : ℚ) 1 2 2) (3, -4)) =
      get_polygon_polygon_collision computeNormals [(0, 0), (4, 0), (0, 3)]
        (boxCorners (1 : ℚ) 1 2 2) :=
  ⟨⟨List.cons_ne_nil _ _, List.cons_ne_nil _ _⟩,
    collision_translate _ _ (3, -4) (List.cons_ne_nil _ _) (List.cons_ne_nil _ _)⟩

/-- Witness: the square `(0,0),(10,0),(10,10),(0,10)` on
the axis `(1,0)`, where the minimum is taken at the indices `0` and `3` and the maximum at `1`
and `2`. -/
theorem getMinMaxProjection_extremes_witness :
    (boxCorners (0 : ℚ) 0 10 10 ≠ []) ∧
    ∃ r, getMinMaxProjection (boxCorners (0 : ℚ) 0 10 10) (1, 0) = some r ∧
      (∀ p ∈ boxCorners (0 : ℚ) 0 10 10, r.min_projection ≤ dot p (1, 0)) ∧
      (∀ p ∈ boxCorners (0 : ℚ) 0 10 10, dot p (1, 0) ≤ r.max_projection) ∧
      ((boxCorners (0 : ℚ) 0 10 10).map (fun p => dot p (1, 0)))[r.min_index]? =
        some r.min_projection ∧
      ((boxCorners (0 : ℚ) 0 10 10).map (fun p => dot p (1, 0)))[r.max_index]? =
        some r.max_projection ∧
      (∀ j, j < r.min_index →
        ((boxCorners (0 : ℚ) 0 10 10).map (fun p => dot p (1, 0)))[j]? ≠ some r.min_projection) ∧
      (∀ j, j < r.max_index →
        ((boxCorners (0 : ℚ) 0 10 10).map (fun p => dot p (1, 0)))[j]? ≠ some r.max_projection) :=
  ⟨List.cons_ne_nil _ _, getMinMaxProjection_extremes _ (1, 0) (List.cons_ne_nil _ _)⟩

/-- Witness: the square on the axis `(1,0)`. -/
theorem getMinMaxProjection_bounds_witness :
    (boxCorners (0 : ℚ) 0 10 10 ≠ []) ∧
    ∃ r, getMinMaxProjection (boxCorners (0 : ℚ) 0 10 10) (1, 0) = some r ∧
      r.min_projection ≤ r.max_projection ∧
      r.min_index < (boxCorners (0 : ℚ) 0 10 10).length ∧
      r.max_index < (boxCorners (0 : ℚ) 0 10 10).length :=
  ⟨List.cons_ne_nil _ _, getMinMaxProjection_bounds _ (1, 0) (List.cons_ne_nil _ _)⟩

theorem get_bbox_from_dimensions_eq (x1 y1 : K) (width height : Int) :
    get_bbox_from_dimensions x1 y1 width height = boxCorners x1 y1 (width : K) (height : K) := rfl

/-- Witness: the boxes `(0,0)-(10,10)` and `(10,0)-(20,10)` on the
axis `(1,0)`, where the first box ends at `10` and the second begins at `10`. -/
theorem touching_is_collision_witness :
    (getMinMaxProjection (boxCorners (0 : ℚ) 0 10 10) (1, 0) =
        some { min_projection := 0, max_projection := 10, max_index := 1, min_index := 0 } ∧
      getMinMaxProjection (boxCorners (10 : ℚ) 0 20 10) (1, 0) =
        some { min_projection := 10, max_projection := 20, max_index := 1, min_index := 0 }) ∧
    ((decide ((10 : ℚ) < 10) || decide ((20 : ℚ) < 0)) = false ∧
      separationLoop (boxCorners (0 : ℚ) 0 10 10) (boxCorners (10 : ℚ) 0 20 10)
          [(1, 0), (0, 1)] false =
        separationLoop (boxCorners (0 : ℚ) 0 10 10) (boxCorners (10 : ℚ) 0 20 10) [(0, 1)] false ∧
      get_polygon_polygon_collision computeNormals
        (boxCorners (0 : ℚ) 0 10 10) (boxCorners (10 : ℚ) 0 20 10) = some true) :=
  have h1 : getMinMaxProjection (boxCorners (0 : ℚ) 0 10 10) (1, 0) =
      some { min_projection := 0, max_projection := 10, max_index := 1, min_index := 0 } := by
    norm_num [getMinMaxProjection, projectionLoop, boxCorners, dot]
  have h2 : getMinMaxProjection (boxCorners (10 : ℚ) 0 20 10) (1, 0) =
      some { min_projection := 10, max_projection := 20, max_index := 1, min_index := 0 } := by
    norm_num [getMinMaxProjection, projectionLoop, boxCorners, dot]
  ⟨⟨h1, h2⟩, touching_is_collision computeNormals _ _ (1, 0) [(0, 1)] false _ _ h1 h2 (Or.inl rfl)⟩

/-- Witness, and the two examples of the
specification: the boxes `(0,0)-(10,10)` and `(5,5)-(15,15)` overlap, the boxes
`(0,0)-(10,10)` and `(20,20)-(30,30)` do not. -/
theorem box_collision_iff_intervals_meet_witness :
    ((0 : ℚ) < 10 ∧ (5 : ℚ) < 15 ∧ (20 : ℚ) < 30) ∧
    get_polygon_polygon_collision computeNormals
      (get_bbox_from_dimensions (0 : ℚ) 0 10 10) (get_bbox_from_dimensions (5 : ℚ) 5 15 15) =
        some true ∧
    get_polygon_polygon_collision computeNormals
      (get_bbox_from_dimensions (0 : ℚ) 0 10 10) (get_bbox_from_dimensions (20 : ℚ) 20 30 30) =
        some false := by
  have h0 : (0 : ℚ) < ((10 : Int) : ℚ) := by norm_num
  have h5 : (5 : ℚ) < ((15 : Int) : ℚ) := by norm_num
  have h20 : (20 : ℚ) < ((30 : Int) : ℚ) := by norm_num
  refine ⟨⟨by norm_num, by norm_num, by norm_num⟩, ?_, ?_⟩
  · rw [get_bbox_from_dimensions_eq, get_bbox_from_dimensions_eq]
    refine (box_collision_iff_intervals_meet (0 : ℚ) 0 _ _ 5 5 _ _ h0 h0 h5 h5).1.2 ⟨?_, ?_⟩ <;>
      exact ⟨5, by constructor <;> constructor <;> norm_num⟩
  · rw [get_bbox_from_dimensions_eq, get_bbox_from_dimensions_eq]
    refine (box_collision_iff_intervals_meet (0 : ℚ) 0 _ _ 20 20 _ _ h0 h0 h20 h20).2.2 ?_
    rintro ⟨⟨x, hx1, hx2⟩, -⟩
    have a := hx1.2
    have b := hx2.1
    norm_num at a b
    linarith

/-! ## Convex polygons: the separating axis theorem -/

theorem mem_of_mem_edgesFrom (first : Vec2 K) (L : List (Vec2 K)) :
    ∀ e ∈ edgesFrom first L, e.1 ∈ L ∧ (e.2 ∈ L ∨ e.2 = first) := by
  induction L with
  | nil => intro e he; simp [edgesFrom] at he
  | cons p ps ih =>
    cases ps with
    | nil =>
      intro e he
      simp only [edgesFrom, List.mem_singleton] at he
      subst he
      simp
    | cons q qs =>
      intro e he
      simp only [edgesFrom, List.mem_cons] at he
      rcases he with rfl | he
      · simp
      · have := ih e (by simpa using he)
        simp only [List.mem_cons] at this ⊢
        tauto

theorem mem_of_mem_edges (P : List (Vec2 K)) :
    ∀ e ∈ edges P, e.1 ∈ P ∧ e.2 ∈ P := by
  cases P with
  | nil => intro e he; simp [edges] at he
  | cons p ps =>
    intro e he
    have := mem_of_mem_edgesFrom p (p :: ps) e he
    refine ⟨this.1, ?_⟩
    rcases this.2 with h | h
    · exact h
    · rw [h]; simp

theorem chain_le_first (t : Vec2 K → K) (first : Vec2 K) (L : List (Vec2 K))
    (h : ∀ e ∈ edgesFrom first L, t e.1 ≤ t e.2) : ∀ x ∈ L, t x ≤ t first := by
  induction L with
  | nil => intro x hx; simp at hx
  | cons p ps ih =>
    cases ps with
    | nil =>
      intro x hx
      simp only [List.mem_singleton] at hx
      subst hx
      exact h (x, first) (by simp [edgesFrom])
    | cons q qs =>
      have ih2 := ih (fun e he => h e (by simp only [edgesFrom, List.mem_cons]; right; exact he))
      intro x hx
      simp only [List.mem_cons] at hx
      rcases hx with rfl | hx
      · exact le_trans (h (x, q) (by simp [edgesFrom])) (ih2 q (by simp))
      · exact ih2 x (by simpa using hx)

theorem chain_head_le (t : Vec2 K → K) (first : Vec2 K) (L : List (Vec2 K)) :
    ∀ p, (∀ e ∈ edgesFrom first (p :: L), t e.1 ≤ t e.2) → ∀ x ∈ p :: L, t p ≤ t x := by
  induction L with
  | nil => intro p _ x hx; simp only [List.mem_singleton] at hx; rw [hx]
  | cons q qs ih =>
    intro p h x hx
    have ih2 := ih q (fun e he => h e (by simp only [edgesFrom, List.mem_cons]; right; exact he))
    simp only [List.mem_cons] at hx
    rcases hx with rfl | hx
    · exact le_refl _
    · exact le_trans (h (p, q) (by simp [edgesFrom])) (ih2 x (by simpa using hx))

/-- A quantity that does not decrease along any edge of a closed vertex list is the same at
all its vertices. -/
theorem cyclic_const (t : Vec2 K → K) (P : List (Vec2 K))
    (h : ∀ e ∈ edges P, t e.1 ≤ t e.2) : ∀ x ∈ P, ∀ y ∈ P, t x = t y := by
  cases P with
  | nil => intro x hx; simp at hx
  | cons p ps =>
    have h1 := chain_le_first t p (p :: ps) h
    have h2 := chain_head_le t p ps p h
    intro x hx y hy
    exact (le_antisymm (h1 x hx) (h2 x hx)).trans (le_antisymm (h2 y hy) (h1 y hy))

theorem cross_sub_sub (p q x : Vec2 K) :
    cross (q - p) (x - p) = cross (p - x) (q - x) := by
  simp only [cross, Prod.fst_sub, Prod.snd_sub]; ring

theorem cross_identity (d u w : Vec2 K) :
    (d.1 * d.1 + d.2 * d.2) * cross u w = dot u d * cross d w - cross d u * dot w d := by
  simp only [cross, dot]; ring

theorem clm_eq_dot (f : Vec2 ℝ →L[ℝ] ℝ) (p : Vec2 ℝ) : f p = dot p (f (1, 0), f (0, 1)) := by
  have hp : p = p.1 • ((1, 0) : Vec2 ℝ) + p.2 • ((0, 1) : Vec2 ℝ) := by
    ext <;> simp
  conv_lhs => rw [hp]
  rw [map_add, map_smul, map_smul]
  simp only [dot, smul_eq_mul]

/-- A point outside the convex hull of a finite point set is strictly separated from it by
a direction. -/
theorem exists_direction_of_not_mem_hull (P : List (Vec2 ℝ)) (x : Vec2 ℝ)
    (hx : x ∉ convexHull ℝ {p : Vec2 ℝ | p ∈ P}) :
    ∃ d : Vec2 ℝ, ∀ v ∈ P, 0 < dot (v - x) d := by
  have hfin : Set.Finite {p : Vec2 ℝ | p ∈ P} := List.finite_toSet P
  have hclosed : IsClosed (convexHull ℝ {p : Vec2 ℝ | p ∈ P}) :=
    (hfin.isCompact_convexHull).isClosed
  obtain ⟨f, s, hfs, hsf⟩ :=
    geometric_hahn_banach_point_closed (convex_convexHull ℝ _) hclosed hx
  refine ⟨(f (1, 0), f (0, 1)), fun v hv => ?_⟩
  have h1 := hsf v (subset_convexHull ℝ _ hv)
  rw [← clm_eq_dot, map_sub]
  linarith

/-- A point that lies on the inner side of every edge line of a convex polygon belongs to the
convex hull of the vertices. Here `σ = 1` for counter-clockwise and `σ = -1` for clockwise
order. -/
theorem mem_hull_of_inner_side (σ : ℝ) (hσ : σ ≠ 0) (P : List (Vec2 ℝ))
    (hnd : ∃ e ∈ edges P, ∃ p ∈ P, cross (e.2 - e.1) (p - e.1) ≠ 0)
    (x : Vec2 ℝ) (hx : ∀ e ∈ edges P, 0 ≤ σ * cross (e.2 - e.1) (x - e.1)) :
    x ∈ convexHull ℝ {p : Vec2 ℝ | p ∈ P} := by
  by_contra hnot
  obtain ⟨d, hd⟩ := exists_direction_of_not_mem_hull P x hnot
  obtain ⟨e0, he0, p0, hp0, hne⟩ := hnd
  have hP0 := mem_of_mem_edges P e0 he0
  set N : ℝ := d.1 * d.1 + d.2 * d.2 with hN
  have hNpos : 0 < N := by
    have h := hd p0 hp0
    by_contra hcon
    have h1 : d.1 * d.1 + d.2 * d.2 ≤ 0 := not_lt.1 hcon
    have h2 : d.1 = 0 := by nlinarith [mul_self_nonneg d.1, mul_self_nonneg d.2]
    have h3 : d.2 = 0 := by nlinarith [mul_self_nonneg d.1, mul_self_nonneg d.2]
    simp only [dot, h2, h3, mul_zero, add_zero, lt_self_iff_false] at h
  -- the slope of a vertex seen from `x`, multiplied by the orientation
  let t : Vec2 ℝ → ℝ := fun v => σ * (cross d (v - x) / dot (v - x) d)
  have hmono : ∀ e ∈ edges P, t e.1 ≤ t e.2 := by
    intro e he
    have hm := mem_of_mem_edges P e he
    have s1 := hd e.1 hm.1
    have s2 := hd e.2 hm.2
    have h := hx e he
    rw [cross_sub_sub] at h
    have hid := cross_identity d (e.1 - x) (e.2 - x)
    have h2 : 0 ≤ σ * (N * cross (e.1 - x) (e.2 - x)) := by
      have : σ * (N * cross (e.1 - x) (e.2 - x)) = N * (σ * cross (e.1 - x) (e.2 - x)) := by ring
      rw [this]; exact mul_nonneg hNpos.le h
    rw [hid] at h2
    show σ * (cross d (e.1 - x) / dot (e.1 - x) d) ≤ σ * (cross d (e.2 - x) / dot (e.2 - x) d)
    have key : σ * (cross d (e.2 - x) / dot (e.2 - x) d) - σ * (cross d (e.1 - x) / dot (e.1 - x) d)
        = σ * (dot (e.1 - x) d * cross d (e.2 - x) - cross d (e.1 - x) * dot (e.2 - x) d) /
          (dot (e.1 - x) d * dot (e.2 - x) d) := by
      field_simp
      ring
    have : 0 ≤ σ * (cross d (e.2 - x) / dot (e.2 - x) d) -
        σ * (cross d (e.1 - x) / dot (e.1 - x) d) := by
      rw [key]; exact div_nonneg h2 (mul_pos s1 s2).le
    linarith
  have hconst := cyclic_const t P hmono
  -- equal slopes: any two vertices are on one line with `x`
  have hcross : ∀ u ∈ P, ∀ w ∈ P, cross (u - x) (w - x) = 0 := by
    intro u hu w hw
    have s1 := hd u hu
    have s2 := hd w hw
    have ht := hconst u hu w hw
    have ht2 : cross d (u - x) / dot (u - x) d = cross d (w - x) / dot (w - x) d :=
      mul_left_cancel₀ hσ ht
    rw [div_eq_div_iff s1.ne' s2.ne'] at ht2
    have hid := cross_identity d (u - x) (w - x)
    have hz : N * cross (u - x) (w - x) = 0 := by rw [hid]; linarith
    rcases mul_eq_zero.1 hz with h | h
    · exact absurd h hNpos.ne'
    · exact h
  apply hne
  have hsplit : cross (e0.2 - e0.1) (p0 - e0.1) =
      cross (e0.2 - x) (p0 - x) - cross (e0.2 - x) (e0.1 - x) - cross (e0.1 - x) (p0 - x) := by
    simp only [cross, Prod.fst_sub, Prod.snd_sub]; ring
  rw [hsplit, hcross _ hP0.2 _ hp0, hcross _ hP0.2 _ hP0.1, hcross _ hP0.1 _ hp0]
  ring

theorem finrank_vec2 : Module.finrank ℝ (Vec2 ℝ) = 2 := by
  simp [Vec2]

/-- The inner side of an edge line is a convex set. -/
theorem convex_inner_side (σ : ℝ) (e : Vec2 ℝ × Vec2 ℝ) :
    Convex ℝ {x : Vec2 ℝ | 0 ≤ σ * cross (e.2 - e.1) (x - e.1)} := by
  have hlin : IsLinearMap ℝ (fun x : Vec2 ℝ => σ * cross (e.2 - e.1) x) := by
    refine ⟨?_, ?_⟩
    · intro p q; simp only [cross, Prod.fst_add, Prod.snd_add]; ring
    · intro c p; simp only [cross, Prod.smul_fst, Prod.smul_snd, smul_eq_mul]; ring
  have hset : {x : Vec2 ℝ | 0 ≤ σ * cross (e.2 - e.1) (x - e.1)} =
      {x : Vec2 ℝ | σ * cross (e.2 - e.1) e.1 ≤ σ * cross (e.2 - e.1) x} := by
    ext x
    simp only [Set.mem_setOf_eq]
    have : σ * cross (e.2 - e.1) (x - e.1) =
        σ * cross (e.2 - e.1) x - σ * cross (e.2 - e.1) e.1 := by
      simp only [cross, Prod.fst_sub, Prod.snd_sub]; ring
    rw [this, sub_nonneg]
  rw [hset]
  exact convex_halfSpace_ge hlin _

theorem card_le_three_cases {ι : Type} [DecidableEq ι] (I : Finset ι) (tag : ι → Bool)
    (hI : I.card ≤ 3) :
    (∀ i ∈ I, ∀ j ∈ I, tag i = true → tag j = true → i = j) ∨
    (∀ i ∈ I, ∀ j ∈ I, tag i = false → tag j = false → i = j) := by
  by_contra hcon
  push_neg at hcon
  obtain ⟨⟨i1, hi1, i2, hi2, ti1, ti2, hne1⟩, ⟨j1, hj1, j2, hj2, tj1, tj2, hne2⟩⟩ := hcon
  have hsub : ({i1, i2, j1, j2} : Finset ι) ⊆ I := by
    intro k hk
    simp only [Finset.mem_insert, Finset.mem_singleton] at hk
    rcases hk with rfl | rfl | rfl | rfl <;> assumption
  have hcard : ({i1, i2, j1, j2} : Finset ι).card = 4 := by
    have h1 : i1 ≠ j1 := by rintro rfl; rw [ti1] at tj1; exact absurd tj1 (by simp)
    have h2 : i1 ≠ j2 := by rintro rfl; rw [ti1] at tj2; exact absurd tj2 (by simp)
    have h3 : i2 ≠ j1 := by rintro rfl; rw [ti2] at tj1; exact absurd tj1 (by simp)
    have h4 : i2 ≠ j2 := by rintro rfl; rw [ti2] at tj2; exact absurd tj2 (by simp)
    rw [Finset.card_insert_of_not_mem, Finset.card_insert_of_not_mem,
      Finset.card_insert_of_not_mem, Finset.card_singleton]
    · simpa using hne2
    · simp [h3, h4]
    · simp [hne1, h1, h2]
  have := Finset.card_le_card hsub
  omega

/-- The separating axis theorem for two convex polygons: when the convex hulls of the vertex
lists are disjoint, one polygon lies strictly on the outer side of an edge line of the other.
`σA`, `σB` are the orientations (`1` counter-clockwise, `-1` clockwise). -/
theorem exists_separating_edge (σA σB : ℝ) (hσA : σA ≠ 0) (hσB : σB ≠ 0) (A B : List (Vec2 ℝ))
    (hAne : A ≠ []) (hBne : B ≠ [])
    (hA : ∀ e ∈ edges A, ∀ p ∈ A, 0 ≤ σA * cross (e.2 - e.1) (p - e.1))
    (hB : ∀ e ∈ edges B, ∀ p ∈ B, 0 ≤ σB * cross (e.2 - e.1) (p - e.1))
    (hndA : ∃ e ∈ edges A, ∃ p ∈ A, cross (e.2 - e.1) (p - e.1) ≠ 0)
    (hndB : ∃ e ∈ edges B, ∃ p ∈ B, cross (e.2 - e.1) (p - e.1) ≠ 0)
    (hdisj : Disjoint (convexHull ℝ {p : Vec2 ℝ | p ∈ A}) (convexHull ℝ {p : Vec2 ℝ | p ∈ B})) :
    (∃ e ∈ edges A, ∀ q ∈ B, σA * cross (e.2 - e.1) (q - e.1) < 0) ∨
    (∃ e ∈ edges B, ∀ p ∈ A, σB * cross (e.2 - e.1) (p - e.1) < 0) := by
  classical
  by_contra hcon
  push_neg at hcon
  obtain ⟨hnA, hnB⟩ := hcon
  let F : Bool × (Vec2 ℝ × Vec2 ℝ) → Set (Vec2 ℝ) := fun i =>
    {x : Vec2 ℝ | 0 ≤ (if i.1 then σA else σB) * cross (i.2.2 - i.2.1) (x - i.2.1)}
  let s : Finset (Bool × (Vec2 ℝ × Vec2 ℝ)) :=
    ((edges A).map (fun e => (true, e))).toFinset ∪ ((edges B).map (fun e => (false, e))).toFinset
  have hs : ∀ i, i ∈ s ↔ (i.1 = true ∧ i.2 ∈ edges A) ∨ (i.1 = false ∧ i.2 ∈ edges B) := by
    rintro ⟨b, e⟩
    simp only [s, Finset.mem_union, List.mem_toFinset, List.mem_map, Prod.mk.injEq]
    constructor
    · rintro (⟨e', he', rfl, rfl⟩ | ⟨e', he', rfl, rfl⟩)
      · exact Or.inl ⟨rfl, he'⟩
      · exact Or.inr ⟨rfl, he'⟩
    · rintro (⟨hb, he⟩ | ⟨hb, he⟩)
      · exact Or.inl ⟨e, he, hb.symm, rfl⟩
      · exact Or.inr ⟨e, he, hb.symm, rfl⟩
  have hFA : ∀ i ∈ s, i.1 = true → ∀ p ∈ A, p ∈ F i := by
    rintro ⟨b, e⟩ hi hb p hp
    simp only at hb
    subst hb
    rcases (hs _).1 hi with h | h
    · simpa [F] using hA e h.2 p hp
    · exact absurd h.1 (by simp)
  have hFB : ∀ i ∈ s, i.1 = false → ∀ p ∈ B, p ∈ F i := by
    rintro ⟨b, e⟩ hi hb p hp
    simp only at hb
    subst hb
    rcases (hs _).1 hi with h | h
    · exact absurd h.1 (by simp)
    · simpa [F] using hB e h.2 p hp
  have hconv : ∀ i ∈ s, Convex ℝ (F i) := fun i _ => convex_inner_side _ i.2
  have hinter : ∀ I ⊆ s, I.card ≤ Module.finrank ℝ (Vec2 ℝ) + 1 → (⋂ i ∈ I, F i).Nonempty := by
    intro I hI hcard
    rw [finrank_vec2] at hcard
    rcases card_le_three_cases I (fun i => i.1) hcard with hone | hone
    · -- at most one edge of `A`: a vertex of `B` lies in all the half planes
      have hq : ∃ q ∈ B, ∀ i ∈ I, i.1 = true → q ∈ F i := by
        by_cases hex : ∃ i ∈ I, i.1 = true
        · obtain ⟨⟨b, e⟩, hi0, hb⟩ := hex
          simp only at hb
          subst hb
          have he : e ∈ edges A := by
            rcases (hs _).1 (hI hi0) with h | h
            · exact h.2
            · exact absurd h.1 (by simp)
          obtain ⟨q, hq, hq2⟩ := hnA e he
          refine ⟨q, hq, fun i hi hti => ?_⟩
          have := hone i hi _ hi0 hti rfl
          subst this
          simpa [F] using hq2
        · push_neg at hex
          obtain ⟨q, hq⟩ := List.exists_mem_of_ne_nil B hBne
          exact ⟨q, hq, fun i hi hti => absurd hti (hex i hi)⟩
      obtain ⟨q, hq, hq2⟩ := hq
      refine ⟨q, ?_⟩
      simp only [Set.mem_iInter]
      intro i hi
      cases hti : i.1
      · exact hFB i (hI hi) hti q hq
      · exact hq2 i hi hti
    · have hq : ∃ q ∈ A, ∀ i ∈ I, i.1 = false → q ∈ F i := by
        by_cases hex : ∃ i ∈ I, i.1 = false
        · obtain ⟨⟨b, e⟩, hi0, hb⟩ := hex
          simp only at hb
          subst hb
          have he : e ∈ edges B := by
            rcases (hs _).1 (hI hi0) with h | h
            · exact absurd h.1 (by simp)
            · exact h.2
          obtain ⟨q, hq, hq2⟩ := hnB e he
          refine ⟨q, hq, fun i hi hti => ?_⟩
          have := hone i hi _ hi0 hti rfl
          subst this
          simpa [F] using hq2
        · push_neg at hex
          obtain ⟨q, hq⟩ := List.exists_mem_of_ne_nil A hAne
          exact ⟨q, hq, fun i hi hti => absurd hti (hex i hi)⟩
      obtain ⟨q, hq, hq2⟩ := hq
      refine ⟨q, ?_⟩
      simp only [Set.mem_iInter]
      intro i hi
      cases hti : i.1
      · exact hq2 i hi hti
      · exact hFA i (hI hi) hti q hq
  obtain ⟨x, hx⟩ := Convex.helly_theorem' hconv hinter
  simp only [Set.mem_iInter] at hx
  have hxA : x ∈ convexHull ℝ {p : Vec2 ℝ | p ∈ A} := by
    apply mem_hull_of_inner_side σA hσA A hndA x
    intro e he
    have := hx (true, e) ((hs _).2 (Or.inl ⟨rfl, he⟩))
    simpa [F] using this
  have hxB : x ∈ convexHull ℝ {p : Vec2 ℝ | p ∈ B} := by
    apply mem_hull_of_inner_side σB hσB B hndB x
    intro e he
    have := hx (false, e) ((hs _).2 (Or.inr ⟨rfl, he⟩))
    simpa [F] using this
  exact Set.disjoint_left.1 hdisj hxA hxB

theorem dot_perp (x v : Vec2 K) : dot x (perp v) = -cross v x := by
  simp only [dot, perp, cross]; ring

theorem cross_sub_right (v x p : Vec2 K) : cross v (x - p) = cross v x - cross v p := by
  simp only [cross, Prod.fst_sub, Prod.snd_sub]; ring

theorem perp_mem_computeNormals (P : List (Vec2 K)) (hlen : 3 ≤ P.length)
    (e : Vec2 K × Vec2 K) (he : e ∈ edges P) : perp (e.2 - e.1) ∈ computeNormals P := by
  unfold computeNormals
  rw [if_neg (by omega)]
  exact List.mem_map.2 ⟨e, he, rfl⟩

/-- An edge line that has one point set strictly on its outer side and the other on its inner
side gives a separating axis: the perpendicular of the edge. -/
theorem separates_of_edge (σ : K) (hσ : σ = 1 ∨ σ = -1) (A B : List (Vec2 K))
    (hA : A ≠ []) (hB : B ≠ []) (e : Vec2 K × Vec2 K)
    (hin : ∀ q ∈ B, 0 ≤ σ * cross (e.2 - e.1) (q - e.1))
    (hout : ∀ p ∈ A, σ * cross (e.2 - e.1) (p - e.1) < 0) :
    Separates A B (perp (e.2 - e.1)) := by
  rw [separates_iff _ _ _ hA hB]
  simp only [dot_perp]
  rcases hσ with rfl | rfl
  · right
    intro p hp q hq
    have h1 := hin q hq
    have h2 := hout p hp
    rw [cross_sub_right] at h1 h2
    linarith
  · left
    intro p hp q hq
    have h1 := hin q hq
    have h2 := hout p hp
    rw [cross_sub_right] at h1 h2
    linarith

theorem IsConvexPolygon.orientation {P : List (Vec2 K)} (h : IsConvexPolygon P) :
    ∃ σ : K, (σ = 1 ∨ σ = -1) ∧ ∀ e ∈ edges P, ∀ p ∈ P, 0 ≤ σ * cross (e.2 - e.1) (p - e.1) := by
  rcases h.2.1 with hc | hc
  · exact ⟨1, Or.inl rfl, fun e he p hp => by simpa using hc e he p hp⟩
  · exact ⟨-1, Or.inr rfl, fun e he p hp => by have := hc e he p hp; linarith⟩

theorem IsConvexPolygon.ne_nil {P : List (Vec2 K)} (h : IsConvexPolygon P) : P ≠ [] := by
  rintro rfl
  have := h.1
  simp at this

/-- Two convex polygons whose regions have no common point are separated by the perpendicular
of an edge of one of them. -/
theorem exists_separating_normal (A B : List (Vec2 ℝ))
    (hA : IsConvexPolygon A) (hB : IsConvexPolygon B) (hdisj : Disjoint (region A) (region B)) :
    ∃ n, (n ∈ computeNormals A ∨ n ∈ computeNormals B) ∧ Separates A B n := by
  obtain ⟨σA, hσA, hcA⟩ := hA.orientation
  obtain ⟨σB, hσB, hcB⟩ := hB.orientation
  have hσA0 : σA ≠ 0 := by rcases hσA with rfl | rfl <;> norm_num
  have hσB0 : σB ≠ 0 := by rcases hσB with rfl | rfl <;> norm_num
  rcases exists_separating_edge σA σB hσA0 hσB0 A B hA.ne_nil hB.ne_nil hcA hcB hA.2.2 hB.2.2
    hdisj with ⟨e, he, hout⟩ | ⟨e, he, hout⟩
  · refine ⟨perp (e.2 - e.1), Or.inl (perp_mem_computeNormals A hA.1 e he), ?_⟩
    rw [separates_symm]
    exact separates_of_edge σA hσA B A hB.ne_nil hA.ne_nil e (hcA e he) hout
  · exact ⟨perp (e.2 - e.1), Or.inr (perp_mem_computeNormals B hB.1 e he),
      separates_of_edge σB hσB A B hA.ne_nil hB.ne_nil e (hcB e he) hout⟩

/-- C3: correctness of the separating axis test for convex polygons. For two convex polygons
(at least three vertices in boundary order, not all on one line) the result is `true` exactly
when the closed regions have a point in common; when they have none, an edge normal of one of
the polygons separates them and the result is `false`. The normals are those of
Section 4.2. -/
theorem sat_correct (A B : List (Vec2 ℝ)) (hA : IsConvexPolygon A) (hB : IsConvexPolygon B) :
    (get_polygon_polygon_collision computeNormals A B = some true ↔
      (region A ∩ region B).Nonempty) ∧
    (¬ (region A ∩ region B).Nonempty →
      (∃ n ∈ computeNormals A ++ computeNormals B, Separates A B n) ∧
      get_polygon_polygon_collision computeNormals A B = some false) := by
  have hsep : ¬ (region A ∩ region B).Nonempty →
      ∃ n, (n ∈ computeNormals A ∨ n ∈ computeNormals B) ∧ Separates A B n := by
    intro h
    apply exists_separating_normal A B hA hB
    rw [Set.disjoint_iff_inter_eq_empty]
    exact Set.not_nonempty_iff_eq_empty.1 h
  refine ⟨⟨?_, ?_⟩, ?_⟩
  · intro htrue
    by_contra hne
    obtain ⟨n, hn, hs⟩ := hsep hne
    exact (collision_eq_true_iff computeNormals A B hA.ne_nil hB.ne_nil).1 htrue n hn hs
  · rintro ⟨x, hxA, hxB⟩
    exact collision_of_mem_hulls computeNormals A B hA.ne_nil hB.ne_nil x hxA hxB
  · intro hne
    obtain ⟨n, hn, hs⟩ := hsep hne
    exact ⟨⟨n, List.mem_append.2 hn, hs⟩,
      (collision_eq_false_iff computeNormals A B hA.ne_nil hB.ne_nil).2 ⟨n, hn, hs⟩⟩

/-- C4, as amended: two convex polygons whose closed regions have no point in common (the
boundaries included) are reported as not colliding. -/
theorem not_colliding_of_disjoint_regions (A B : List (Vec2 ℝ))
    (hA : IsConvexPolygon A) (hB : IsConvexPolygon B) (hdisj : Disjoint (region A) (region B)) :
    get_polygon_polygon_collision computeNormals A B = some false :=
  (collision_eq_false_iff computeNormals A B hA.ne_nil hB.ne_nil).2
    (exists_separating_normal A B hA hB hdisj)

theorem isConvexPolygon_boxCorners (x1 y1 x2 y2 : K) (hx : x1 < x2) (hy : y1 < y2) :
    IsConvexPolygon (boxCorners x1 y1 x2 y2) := by
  have hx' : 0 < x2 - x1 := sub_pos.2 hx
  have hy' : 0 < y2 - y1 := sub_pos.2 hy
  refine ⟨by simp [boxCorners], Or.inl ?_, ?_⟩
  · intro e he p hp
    simp only [boxCorners, edges, edgesFrom, List.mem_cons, List.mem_singleton,
      List.not_mem_nil, or_false] at he hp
    rcases he with rfl | rfl | rfl | rfl <;> rcases hp with rfl | rfl | rfl | rfl <;>
      simp only [cross, Prod.fst_sub, Prod.snd_sub, Prod.fst_zero, Prod.snd_zero, sub_self,
        mul_zero, zero_mul, sub_zero, zero_sub, le_refl] <;> nlinarith
  · refine ⟨((x1, y1), (x2, y1)), by simp [boxCorners, edges, edgesFrom], (x2, y2),
      by simp [boxCorners], ?_⟩
    simp only [cross, Prod.fst_sub, Prod.snd_sub, sub_self, zero_mul, sub_zero]
    exact (mul_pos hx' hy').ne'

theorem region_fst_le (P : List (Vec2 ℝ)) (c : ℝ) (h : ∀ p ∈ P, p.1 ≤ c) :
    ∀ x ∈ region P, x.1 ≤ c := by
  intro x hx
  have := (projection_mem_hull P (1, 0) x hx).2
  obtain ⟨p, hp, hpe⟩ := maxProjection_mem P (1, 0) (by
    rintro rfl
    simp [region] at hx)
  rw [← hpe] at this
  simp only [dot, mul_one, mul_zero, add_zero] at this
  exact le_trans this (h p hp)

theorem region_le_fst (P : List (Vec2 ℝ)) (c : ℝ) (h : ∀ p ∈ P, c ≤ p.1) :
    ∀ x ∈ region P, c ≤ x.1 := by
  intro x hx
  have := (projection_mem_hull P (1, 0) x hx).1
  obtain ⟨p, hp, hpe⟩ := minProjection_mem P (1, 0) (by
    rintro rfl
    simp [region] at hx)
  rw [← hpe] at this
  simp only [dot, mul_one, mul_zero, add_zero] at this
  exact le_trans (h p hp) this

theorem boxCorners_fst (x1 y1 x2 y2 : K) (hx : x1 < x2) :
    ∀ p ∈ boxCorners x1 y1 x2 y2, x1 ≤ p.1 ∧ p.1 ≤ x2 := by
  intro p hp
  simp only [boxCorners, List.mem_cons, List.mem_singleton, List.not_mem_nil, or_false] at hp
  rcases hp with rfl | rfl | rfl | rfl <;> exact ⟨by simp [hx.le], by simp [hx.le]⟩

/-- Witness: the boxes `(0,0)-(10,10)` and `(5,5)-(15,15)`. -/
theorem sat_correct_witness :
    (IsConvexPolygon (boxCorners (0 : ℝ) 0 10 10) ∧ IsConvexPolygon (boxCorners (5 : ℝ) 5 15 15)) ∧
    ((get_polygon_polygon_collision computeNormals
          (boxCorners (0 : ℝ) 0 10 10) (boxCorners (5 : ℝ) 5 15 15) = some true ↔
        (region (boxCorners (0 : ℝ) 0 10 10) ∩ region (boxCorners (5 : ℝ) 5 15 15)).Nonempty) ∧
      (¬ (region (boxCorners (0 : ℝ) 0 10 10) ∩ region (boxCorners (5 : ℝ) 5 15 15)).Nonempty →
        (∃ n ∈ computeNormals (boxCorners (0 : ℝ) 0 10 10) ++
            computeNormals (boxCorners (5 : ℝ) 5 15 15),
          Separates (boxCorners (0 : ℝ) 0 10 10) (boxCorners (5 : ℝ) 5 15 15) n) ∧
        get_polygon_polygon_collision computeNormals
          (boxCorners (0 : ℝ) 0 10 10) (boxCorners (5 : ℝ) 5 15 15) = some false)) :=
  have hA : IsConvexPolygon (boxCorners (0 : ℝ) 0 10 10) :=
    isConvexPolygon_boxCorners 0 0 10 10 (by norm_num) (by norm_num)
  have hB : IsConvexPolygon (boxCorners (5 : ℝ) 5 15 15) :=
    isConvexPolygon_boxCorners 5 5 15 15 (by norm_num) (by norm_num)
  ⟨⟨hA, hB⟩, sat_correct _ _ hA hB⟩

/-- Witness: the boxes `(0,0)-(10,10)` and
`(20,20)-(30,30)`. -/
theorem not_colliding_of_disjoint_regions_witness :
    (IsConvexPolygon (boxCorners (0 : ℝ) 0 10 10) ∧
      IsConvexPolygon (boxCorners (20 : ℝ) 20 30 30) ∧
      Disjoint (region (boxCorners (0 : ℝ) 0 10 10)) (region (boxCorners (20 : ℝ) 20 30 30))) ∧
    get_polygon_polygon_collision computeNormals
      (boxCorners (0 : ℝ) 0 10 10) (boxCorners (20 : ℝ) 20 30 30) = some false :=
  have hA : IsConvexPolygon (boxCorners (0 : ℝ) 0 10 10) :=
    isConvexPolygon_boxCorners 0 0 10 10 (by norm_num) (by norm_num)
  have hB : IsConvexPolygon (boxCorners (20 : ℝ) 20 30 30) :=
    isConvexPolygon_boxCorners 20 20 30 30 (by norm_num) (by norm_num)
  have hd : Disjoint (region (boxCorners (0 : ℝ) 0 10 10))
      (region (boxCorners (20 : ℝ) 20 30 30)) := by
    rw [Set.disjoint_left]
    intro x h1 h2
    have a := region_fst_le _ 10 (fun p hp => (boxCorners_fst 0 0 10 10 (by norm_num) p hp).2) x h1
    have b := region_le_fst _ 20 (fun p hp => (boxCorners_fst 20 20 30 30 (by norm_num) p hp).1) x h2
    linarith
  ⟨⟨hA, hB, hd⟩, not_colliding_of_disjoint_regions _ _ hA hB hd⟩

/-- C4, as stated, fails: the boxes `(0,0)-(10,10)` and `(10,0)-(20,10)` are convex polygons
with disjoint interiors (they share an edge only), and the result is `true`. -/
theorem disjoint_interiors_not_enough :
    ¬ (∀ A B : List (Vec2 ℝ), IsConvexPolygon A → IsConvexPolygon B →
        Disjoint (interior (region A)) (interior (region B)) →
        get_polygon_polygon_collision computeNormals A B = some false) := by
  intro h
  have hA : IsConvexPolygon (boxCorners (0 : ℝ) 0 10 10) :=
    isConvexPolygon_boxCorners 0 0 10 10 (by norm_num) (by norm_num)
  have hB : IsConvexPolygon (boxCorners (10 : ℝ) 0 20 10) :=
    isConvexPolygon_boxCorners 10 0 20 10 (by norm_num) (by norm_num)
  have hsubA : region (boxCorners (0 : ℝ) 0 10 10) ⊆ Set.Iic (10 : ℝ) ×ˢ Set.univ := by
    intro x hx
    exact ⟨region_fst_le _ 10 (fun p hp => (boxCorners_fst 0 0 10 10 (by norm_num) p hp).2) x hx,
      Set.mem_univ _⟩
  have hsubB : region (boxCorners (10 : ℝ) 0 20 10) ⊆ Set.Ici (10 : ℝ) ×ˢ Set.univ := by
    intro x hx
    exact ⟨region_le_fst _ 10 (fun p hp => (boxCorners_fst 10 0 20 10 (by norm_num) p hp).1) x hx,
      Set.mem_univ _⟩
  have hd : Disjoint (interior (region (boxCorners (0 : ℝ) 0 10 10)))
      (interior (region (boxCorners (10 : ℝ) 0 20 10))) := by
    rw [Set.disjoint_left]
    intro x h1 h2
    have a := interior_mono hsubA h1
    have b := interior_mono hsubB h2
    rw [interior_prod_eq, interior_Iic] at a
    rw [interior_prod_eq, interior_Ici] at b
    have a1 : x.1 < 10 := a.1
    have b1 : 10 < x.1 := b.1
    linarith
  have hfalse := h _ _ hA hB hd
  have htrue : get_polygon_polygon_collision computeNormals
      (boxCorners (0 : ℝ) 0 10 10) (boxCorners (10 : ℝ) 0 20 10) = some true := by
    rw [box_collision_iff (0 : ℝ) 0 10 10 10 0 20 10 (by norm_num) (by norm_num) (by norm_num)
      (by norm_num)]
    norm_num
  rw [htrue] at hfalse
  exact absurd hfalse (by simp)

/-! ## The shape builders -/

/-- C12: `get_bbox_from_dimensions(x, y, width, height)` returns exactly four points, in the
order top-left `(x, y)`, top-right `(width, y)`, bottom-right `(width, height)`, bottom-left
`(x, height)`: `width` and `height` are the coordinates of the opposite corner, not offsets. -/
theorem get_bbox_from_dimensions_corners (x y : K) (width height : Int) :
    get_bbox_from_dimensions x y width height =
      [(x, y), ((width : K), y), ((width : K), (height : K)), (x, (height : K))] ∧
    (get_bbox_from_dimensions x y width height).length = 4 :=
  ⟨rfl, rfl⟩

theorem doubleToInt_small : doubleToInt 0.2 = 0 := by
  have h : (0.2 : ℚ) = 1 / 5 := by norm_num
  have hn : (0.2 : ℚ).num = 1 := by rw [h]; norm_num
  have hd : (0.2 : ℚ).den = 5 := by rw [h]; norm_num
  unfold doubleToInt
  rw [hn, hd]
  decide

theorem bbox_main_eq : (bbox_main : List (Vec2 K)) = [(0, 0), (0, 0), (0, 0), (0, 0)] := by
  simp [bbox_main, get_bbox_from_dimensions, doubleToInt_small]

/-- C13, the code at the point box: the call `get_bbox_from_dimensions(0, 0, 0.2, 0.2)` passes
`0.2` for `int` parameters, so `width` and `height` are `0` and the four corners are all
`(0,0)`; this is not the box with the corners `(0,0), (0.2,0), (0.2,0.2), (0,0.2)`. -/
theorem bbox_main_degenerate :
    (bbox_main : List (Vec2 ℚ)) = [(0, 0), (0, 0), (0, 0), (0, 0)] ∧
    (bbox_main : List (Vec2 ℚ)) ≠ [(0, 0), (0.2, 0), (0.2, 0.2), (0, 0.2)] := by
  refine ⟨bbox_main_eq, ?_⟩
  rw [bbox_main_eq]
  intro h
  have h2 : ((0, 0) : Vec2 ℚ) = (0.2, 0) := (List.cons.inj (List.cons.inj h).2).1
  have h3 : (0 : ℚ) = 0.2 := (Prod.mk.inj h2).1
  norm_num at h3

/-! ## The ellipse -/

/-- C14: where the denominator is not zero, `getEllipseProjectionPoints(t, cx, cy, rx, ry)`
returns exactly two points, `(r cos t - cx, r sin t - cy)` and then
`(r cos t + cx, r sin t + cy)`, with `r = (rx ry) / (rx² sin² t + ry² cos² t)`: the denominator
is used without a square root. -/
theorem getEllipseProjectionPoints_eq (sin cos : K → K) (t cx cy rx ry : K)
    (h : rx ^ 2 * sin t ^ 2 + ry ^ 2 * cos t ^ 2 ≠ 0) :
    getEllipseProjectionPoints sin cos t cx cy rx ry =
      some [((rx * ry) / (rx ^ 2 * sin t ^ 2 + ry ^ 2 * cos t ^ 2) * cos t - cx,
              (rx * ry) / (rx ^ 2 * sin t ^ 2 + ry ^ 2 * cos t ^ 2) * sin t - cy),
            ((rx * ry) / (rx ^ 2 * sin t ^ 2 + ry ^ 2 * cos t ^ 2) * cos t + cx,
              (rx * ry) / (rx ^ 2 * sin t ^ 2 + ry ^ 2 * cos t ^ 2) * sin t + cy)] := by
  unfold getEllipseProjectionPoints
  simp only [if_neg h]

/-- Witness: the ellipse with radii `2` and `3` about `(1,1)` at the angle `0`, with the sine
and cosine of the real numbers. -/
theorem getEllipseProjectionPoints_eq_witness :
    ((2 : ℝ) ^ 2 * Real.sin 0 ^ 2 + (3 : ℝ) ^ 2 * Real.cos 0 ^ 2 ≠ 0) ∧
    getEllipseProjectionPoints Real.sin Real.cos (0 : ℝ) 1 1 2 3 =
      some [((2 * 3) / ((2 : ℝ) ^ 2 * Real.sin 0 ^ 2 + (3 : ℝ) ^ 2 * Real.cos 0 ^ 2) * Real.cos 0 - 1,
              (2 * 3) / ((2 : ℝ) ^ 2 * Real.sin 0 ^ 2 + (3 : ℝ) ^ 2 * Real.cos 0 ^ 2) * Real.sin 0 - 1),
            ((2 * 3) / ((2 : ℝ) ^ 2 * Real.sin 0 ^ 2 + (3 : ℝ) ^ 2 * Real.cos 0 ^ 2) * Real.cos 0 + 1,
              (2 * 3) / ((2 : ℝ) ^ 2 * Real.sin 0 ^ 2 + (3 : ℝ) ^ 2 * Real.cos 0 ^ 2) * Real.sin 0 + 1)] :=
  have h : (2 : ℝ) ^ 2 * Real.sin 0 ^ 2 + (3 : ℝ) ^ 2 * Real.cos 0 ^ 2 ≠ 0 := by
    simp [Real.sin_zero, Real.cos_zero]
  ⟨h, getEllipseProjectionPoints_eq Real.sin Real.cos 0 1 1 2 3 h⟩

/-! ## Invalid inputs -/

/-- C17, as stated, fails: on the empty point set `getMinMaxProjection` reads `vecs_box[0]`
without a check, and nothing is reported. -/
theorem getMinMaxProjection_empty_not_reported :
    outcome (getMinMaxProjection ([] : List (Vec2 ℚ)) (1, 0)) ≠ Outcome.invalidArgument := by
  simp [getMinMaxProjection, outcome]

/-- C17, as amended: applied to an empty point set `getMinMaxProjection` has no defined result
(it reads element `0` of the empty container) and reports no failure; applied to a non-empty
point set it returns a record. -/
theorem getMinMaxProjection_defined (a : Vec2 K) :
    outcome (getMinMaxProjection ([] : List (Vec2 K)) a) = Outcome.undefined ∧
    ∀ P : List (Vec2 K), P ≠ [] → ∃ r, outcome (getMinMaxProjection P a) = Outcome.returns r := by
  refine ⟨rfl, fun P hP => ?_⟩
  obtain ⟨r, hr, -⟩ := getMinMaxProjection_spec P a hP
  exact ⟨r, by rw [hr]; rfl⟩

theorem getEllipseProjectionPoints_zero_radii (sin cos : K → K) (t cx cy : K) :
    getEllipseProjectionPoints sin cos t cx cy 0 0 = none := by
  simp [getEllipseProjectionPoints]

/-- C16, as stated, fails: with `rx = ry = 0` the quotient `0 / 0` is computed without a
guard, and nothing is reported. -/
theorem degenerate_ellipse_not_reported :
    outcome (getEllipseProjectionPoints Real.sin Real.cos (0 : ℝ) 0 0 0 0) ≠
      Outcome.invalidArgument := by
  rw [getEllipseProjectionPoints_zero_radii]
  simp [outcome]

/-- C16, as amended: with `rx = ry = 0` the denominator is zero at every angle and the division
is not guarded: `getEllipseProjectionPoints` has no defined result in exact arithmetic and
reports no failure, and neither does `get_polygon_ellipse_collision` on a polygon for which
there is at least one normal. -/
theorem degenerate_ellipse_undefined (sin cos : K → K) (t cx cy : K) :
    outcome (getEllipseProjectionPoints sin cos t cx cy 0 0) = Outcome.undefined ∧
    ∀ (cn : List (Vec2 K) → List (Vec2 K)) (abv : Vec2 K → Vec2 K → K) (P : List (Vec2 K)),
      cn P ≠ [] → outcome (get_polygon_ellipse_collision cn sin cos abv P cx cy 0 0) =
        Outcome.undefined := by
  refine ⟨by rw [getEllipseProjectionPoints_zero_radii]; rfl, ?_⟩
  intro cn abv P hcn
  have hloop : ∀ (size : Nat) (ns : List (Vec2 K)), ns ≠ [] →
      ellipseLoop sin cos abv P cx cy 0 0 size ns 0 false = none := by
    intro size ns hns
    cases ns with
    | nil => exact absurd rfl hns
    | cons n rest =>
      simp only [ellipseLoop, getEllipseProjectionPoints_zero_radii]
      cases P[0]? with
      | none => rfl
      | some point2 =>
        simp only
        generalize (if 0 = size - 1 then some point2 else P[0 + 1]?) = o
        cases o <;> rfl
  have hnone : get_polygon_ellipse_collision cn sin cos abv P cx cy 0 0 = none := by
    unfold get_polygon_ellipse_collision
    simp only [hloop _ _ hcn]
  rw [hnone]
  rfl

/-! ## The normals of Section 4.2 -/

theorem edgesFrom_length (first : Vec2 K) (L : List (Vec2 K)) :
    (edgesFrom first L).length = L.length := by
  induction L with
  | nil => rfl
  | cons p ps ih =>
    cases ps with
    | nil => rfl
    | cons q qs => simp only [edgesFrom, List.length_cons] at ih ⊢; omega

theorem edgesFrom_getElem? (first : Vec2 K) (L : List (Vec2 K)) :
    ∀ i, i < L.length →
      (edgesFrom first L)[i]? = some (L.getD i first, L.getD (i + 1) first) := by
  induction L with
  | nil => intro i hi; simp at hi
  | cons p ps ih =>
    cases ps with
    | nil =>
      intro i hi
      have : i = 0 := by simpa using hi
      subst this
      simp [edgesFrom]
    | cons q qs =>
      intro i hi
      cases i with
      | zero => simp [edgesFrom]
      | succ j =>
        have := ih j (by simpa using hi)
        simpa [edgesFrom] using this

theorem edges_length (P : List (Vec2 K)) : (edges P).length = P.length := by
  cases P with
  | nil => rfl
  | cons p ps => exact edgesFrom_length p (p :: ps)

theorem getD_succ_eq_mod (P : List (Vec2 K)) (p0 : Vec2 K) (hp0 : P[0]? = some p0)
    (i : Nat) (hi : i < P.length) (q : Vec2 K) (hq : P[(i + 1) % P.length]? = some q) :
    P.getD (i + 1) p0 = q := by
  by_cases h : i + 1 < P.length
  · rw [Nat.mod_eq_of_lt h] at hq
    simp [List.getD, hq]
  · have hlen : i + 1 = P.length := by omega
    rw [hlen, Nat.mod_self, hp0] at hq
    rw [hlen, List.getD_eq_getElem?_getD, List.getElem?_eq_none (le_refl _), Option.getD_none]
    exact Option.some.inj hq

theorem dot_perp_self (v : Vec2 K) : dot (perp v) v = 0 := by
  simp only [dot, perp]; ring

/-- C19: for a vertex list other than a single point, `computeNormals` yields exactly one axis
per vertex, and the axis with index `i` is the perpendicular of the edge from vertex `i` to
vertex `i + 1` (the last edge going back to vertex `0`), so that its dot product with that edge
is `0`; in particular a 4-point rectangle has exactly 4 axes. -/
theorem computeNormals_one_per_edge (P : List (Vec2 K)) (h1 : P.length ≠ 1) :
    (computeNormals P).length = P.length ∧
    (∀ i p q, P[i]? = some p → P[(i + 1) % P.length]? = some q →
      (computeNormals P)[i]? = some (perp (q - p)) ∧ dot (perp (q - p)) (q - p) = 0) ∧
    ∀ x1 y1 x2 y2 : K, (computeNormals (boxCorners x1 y1 x2 y2)).length = 4 := by
  refine ⟨?_, ?_, ?_⟩
  · unfold computeNormals
    split_ifs with h
    · have : P.length = 0 := by omega
      simp [this]
    · simp [edges_length]
  · intro i p q hp hq
    refine ⟨?_, dot_perp_self _⟩
    have hi : i < P.length := by
      by_contra hcon
      rw [List.getElem?_eq_none (by omega)] at hp
      exact absurd hp (by simp)
    cases P with
    | nil => simp at hi
    | cons p0 ps =>
      have hlen : ¬ (p0 :: ps).length ≤ 1 := by omega
      have he := edgesFrom_getElem? p0 (p0 :: ps) i hi
      have hq2 := getD_succ_eq_mod (p0 :: ps) p0 (by simp) i hi q hq
      have hp2 : (p0 :: ps).getD i p0 = p := by simp [List.getD, hp]
      rw [hq2, hp2] at he
      unfold computeNormals
      rw [if_neg hlen, List.getElem?_map]
      show Option.map _ (edgesFrom p0 (p0 :: ps))[i]? = _
      rw [he]
      rfl
  · intro x1 y1 x2 y2
    simp [computeNormals_boxCorners]

/-- Witness: the square `(0,0),(10,0),(10,10),(0,10)`. -/
theorem computeNormals_one_per_edge_witness :
    ((boxCorners (0 : ℚ) 0 10 10).length ≠ 1) ∧
    ((computeNormals (boxCorners (0 : ℚ) 0 10 10)).length = (boxCorners (0 : ℚ) 0 10 10).length ∧
    (∀ i p q, (boxCorners (0 : ℚ) 0 10 10)[i]? = some p →
      (boxCorners (0 : ℚ) 0 10 10)[(i + 1) % (boxCorners (0 : ℚ) 0 10 10).length]? = some q →
      (computeNormals (boxCorners (0 : ℚ) 0 10 10))[i]? = some (perp (q - p)) ∧
        dot (perp (q - p)) (q - p) = 0) ∧
    ∀ x1 y1 x2 y2 : ℚ, (computeNormals (boxCorners x1 y1 x2 y2)).length = 4) :=
  ⟨by decide, computeNormals_one_per_edge _ (by decide)⟩

/-- C20: a shape without axes. When `normals(A)` is empty and both point sets are non-empty, the
result is defined and decided by the axes of `B` alone: it is `true` exactly when no axis of
`normals(B)` separates `A` from `B`; when `B` has no axes either, it is `true`. -/
theorem collision_of_no_axes (cn : List (Vec2 K) → List (Vec2 K)) (A B : List (Vec2 K))
    (hnA : cn A = []) (hA : A ≠ []) (hB : B ≠ []) :
    (get_polygon_polygon_collision cn A B = some true ∨
      get_polygon_polygon_collision cn A B = some false) ∧
    (get_polygon_polygon_collision cn A B = some true ↔ ∀ n ∈ cn B, ¬ Separates A B n) ∧
    (cn B = [] → get_polygon_polygon_collision cn A B = some true) := by
  have hiff : get_polygon_polygon_collision cn A B = some true ↔
      ∀ n ∈ cn B, ¬ Separates A B n := by
    rw [collision_eq_true_iff cn A B hA hB, hnA]
    simp
  refine ⟨collision_isSome cn A B hA hB, hiff, fun hnB => ?_⟩
  rw [hiff, hnB]
  simp

/-- Witness: the single point `(5,5)`, which has no normals, and the square
`(0,0),(10,0),(10,10),(0,10)`. -/
theorem collision_of_no_axes_witness :
    (computeNormals ([(5, 5)] : List (Vec2 ℚ)) = [] ∧ ([(5, 5)] : List (Vec2 ℚ)) ≠ [] ∧
      boxCorners (0 : ℚ) 0 10 10 ≠ []) ∧
    ((get_polygon_polygon_collision computeNormals [(5, 5)] (boxCorners (0 : ℚ) 0 10 10) =
          some true ∨
        get_polygon_polygon_collision computeNormals [(5, 5)] (boxCorners (0 : ℚ) 0 10 10) =
          some false) ∧
      (get_polygon_polygon_collision computeNormals [(5, 5)] (boxCorners (0 : ℚ) 0 10 10) =
          some true ↔
        ∀ n ∈ computeNormals (boxCorners (0 : ℚ) 0 10 10),
          ¬ Separates [(5, 5)] (boxCorners (0 : ℚ) 0 10 10) n) ∧
      (computeNormals (boxCorners (0 : ℚ) 0 10 10) = [] →
        get_polygon_polygon_collision computeNormals [(5, 5)] (boxCorners (0 : ℚ) 0 10 10) =
          some true)) :=
  ⟨⟨rfl, List.cons_ne_nil _ _, List.cons_ne_nil _ _⟩,
    collision_of_no_axes computeNormals _ _ rfl (List.cons_ne_nil _ _) (List.cons_ne_nil _ _)⟩

/-! ## The adapters -/

/-- C18: `get_polygon_bbox_collision(inst1, inst2)` returns `inst2` exactly when
`get_polygon_polygon_collision` reports an overlap of the transformed polygon points of `inst1`
with the box `get_bbox_from_dimensions(0, 0, w2, h2)` moved by `offsetPoints` to
`(inst2.x, inst2.y)`, and `NULL` exactly when it reports none; no other reference is ever
returned. The last part reads `offsetPoints` as the translation of Section 4.6. -/
theorem get_polygon_bbox_collision_result (cn : List (Vec2 K) → List (Vec2 K))
    (engine : Engine K) (inst1 inst2 : object_collisions K) :
    (get_polygon_bbox_collision cn engine inst1 inst2 = some (some inst2) ↔
      get_polygon_polygon_collision cn (transformedPoints engine inst1)
        (engine.offsetPoints (get_bbox_from_dimensions 0 0 (maskSprite engine inst2).width
          (maskSprite engine inst2).height) inst2.x inst2.y) = some true) ∧
    (get_polygon_bbox_collision cn engine inst1 inst2 = some none ↔
      get_polygon_polygon_collision cn (transformedPoints engine inst1)
        (engine.offsetPoints (get_bbox_from_dimensions 0 0 (maskSprite engine inst2).width
          (maskSprite engine inst2).height) inst2.x inst2.y) = some false) ∧
    (∀ r, get_polygon_bbox_collision cn engine inst1 inst2 = some (some r) → r = inst2) ∧
    (engine.offsetPoints = offsetPoints →
      (get_polygon_bbox_collision cn engine inst1 inst2 = some (some inst2) ↔
        get_polygon_polygon_collision cn (transformedPoints engine inst1)
          (translate (get_bbox_from_dimensions 0 0 (maskSprite engine inst2).width
            (maskSprite engine inst2).height) (inst2.x, inst2.y)) = some true)) := by
  have hdef : get_polygon_bbox_collision cn engine inst1 inst2 =
      match get_polygon_polygon_collision cn (transformedPoints engine inst1)
        (engine.offsetPoints (get_bbox_from_dimensions 0 0 (maskSprite engine inst2).width
          (maskSprite engine inst2).height) inst2.x inst2.y) with
      | none => none
      | some collides => some (if collides then some inst2 else none) := rfl
  have h1 : get_polygon_bbox_collision cn engine inst1 inst2 = some (some inst2) ↔
      get_polygon_polygon_collision cn (transformedPoints engine inst1)
        (engine.offsetPoints (get_bbox_from_dimensions 0 0 (maskSprite engine inst2).width
          (maskSprite engine inst2).height) inst2.x inst2.y) = some true := by
    rw [hdef]
    cases get_polygon_polygon_collision cn (transformedPoints engine inst1)
        (engine.offsetPoints (get_bbox_from_dimensions 0 0 (maskSprite engine inst2).width
          (maskSprite engine inst2).height) inst2.x inst2.y) with
    | none => simp
    | some b => cases b <;> simp
  refine ⟨h1, ?_, ?_, ?_⟩
  · rw [hdef]
    cases get_polygon_polygon_collision cn (transformedPoints engine inst1)
        (engine.offsetPoints (get_bbox_from_dimensions 0 0 (maskSprite engine inst2).width
          (maskSprite engine inst2).height) inst2.x inst2.y) with
    | none => simp
    | some b => cases b <;> simp
  · intro r hr
    rw [hdef] at hr
    cases hc : get_polygon_polygon_collision cn (transformedPoints engine inst1)
        (engine.offsetPoints (get_bbox_from_dimensions 0 0 (maskSprite engine inst2).width
          (maskSprite engine inst2).height) inst2.x inst2.y) with
    | none => rw [hc] at hr; simp at hr
    | some b =>
      rw [hc] at hr
      cases b
      · simp at hr
      · simp only [if_true, Option.some.injEq] at hr
        exact hr.symm
  · intro hoff
    rw [h1, hoff]
    rfl

theorem dot_zero_axis (p : Vec2 K) : dot p (0, 0) = 0 := by
  simp [dot]

/-- The axis `(0,0)` separates nothing. -/
theorem not_separates_zero (A B : List (Vec2 K)) (hA : A ≠ []) (hB : B ≠ []) :
    ¬ Separates A B (0, 0) := by
  rw [separates_iff A B _ hA hB]
  obtain ⟨p, hp⟩ := List.exists_mem_of_ne_nil A hA
  obtain ⟨q, hq⟩ := List.exists_mem_of_ne_nil B hB
  rintro (h | h)
  · have := h p hp q hq
    rw [dot_zero_axis, dot_zero_axis] at this
    exact lt_irrefl _ this
  · have := h p hp q hq
    rw [dot_zero_axis, dot_zero_axis] at this
    exact lt_irrefl _ this

/-- The overlap test of the four-fold point `(x, y)` with the square `(0,0)-(10,10)`. -/
theorem point_square_collision_iff (x y : K) :
    get_polygon_polygon_collision computeNormals [(x, y), (x, y), (x, y), (x, y)]
        (boxCorners (0 : K) 0 10 10) = some true ↔
      (0 ≤ x ∧ x ≤ 10) ∧ (0 ≤ y ∧ y ≤ 10) := by
  have hA : ([(x, y), (x, y), (x, y), (x, y)] : List (Vec2 K)) ≠ [] := List.cons_ne_nil _ _
  have hB : boxCorners (0 : K) 0 10 10 ≠ [] := List.cons_ne_nil _ _
  have hnA : computeNormals ([(x, y), (x, y), (x, y), (x, y)] : List (Vec2 K)) =
      [(0, 0), (0, 0), (0, 0), (0, 0)] := by
    simp [computeNormals, edges, edgesFrom, perp]
  have hx1 : Separates [(x, y), (x, y), (x, y), (x, y)] (boxCorners (0 : K) 0 10 10) (1, 0) ↔
      x < 0 ∨ 10 < x := by
    rw [separates_iff _ _ _ hA hB]
    simp only [boxCorners, List.mem_cons, List.mem_singleton, List.not_mem_nil, or_false, dot,
      forall_eq_or_imp, forall_eq, mul_one, mul_zero, add_zero, or_self]
    constructor
    · rintro (h | h)
      · left; exact h.1
      · right; exact h.2.1
    · rintro (h | h)
      · left; refine ⟨?_, ?_, ?_, ?_⟩ <;> linarith
      · right; refine ⟨?_, ?_, ?_, ?_⟩ <;> linarith
  have hy1 : Separates [(x, y), (x, y), (x, y), (x, y)] (boxCorners (0 : K) 0 10 10) (0, 1) ↔
      y < 0 ∨ 10 < y := by
    rw [separates_iff _ _ _ hA hB]
    simp only [boxCorners, List.mem_cons, List.mem_singleton, List.not_mem_nil, or_false, dot,
      forall_eq_or_imp, forall_eq, mul_one, mul_zero, zero_add, or_self]
    constructor
    · rintro (h | h)
      · left; exact h.1
      · right; exact h.2.2.1
    · rintro (h | h)
      · left; refine ⟨?_, ?_, ?_, ?_⟩ <;> linarith
      · right; refine ⟨?_, ?_, ?_, ?_⟩ <;> linarith
  have sx : ∀ c : K, c ≠ 0 →
      (Separates [(x, y), (x, y), (x, y), (x, y)] (boxCorners (0 : K) 0 10 10) (c, 0) ↔
        x < 0 ∨ 10 < x) := by
    intro c hc
    have := separates_scale [(x, y), (x, y), (x, y), (x, y)] (boxCorners (0 : K) 0 10 10)
      (1, 0) c hc hA hB
    simp only [mul_one, mul_zero] at this
    rw [this]; exact hx1
  have sy : ∀ c : K, c ≠ 0 →
      (Separates [(x, y), (x, y), (x, y), (x, y)] (boxCorners (0 : K) 0 10 10) (0, c) ↔
        y < 0 ∨ 10 < y) := by
    intro c hc
    have := separates_scale [(x, y), (x, y), (x, y), (x, y)] (boxCorners (0 : K) 0 10 10)
      (0, 1) c hc hA hB
    simp only [mul_one, mul_zero] at this
    rw [this]; exact hy1
  rw [collision_eq_true_iff _ _ _ hA hB, hnA, computeNormals_boxCorners]
  constructor
  · intro h
    have h1 := h (10 - 0, 0) (by simp)
    have h2 := h (0, -(10 - 0)) (by simp)
    rw [sx _ (by norm_num)] at h1
    rw [sy _ (by norm_num)] at h2
    push_neg at h1 h2
    exact ⟨h1, h2⟩
  · rintro ⟨⟨a1, a2⟩, ⟨b1, b2⟩⟩ n hn
    simp only [List.mem_cons, List.mem_singleton, List.not_mem_nil, or_false, or_self] at hn
    rcases hn with rfl | (rfl | rfl | rfl | rfl)
    · exact not_separates_zero _ _ hA hB
    · rw [sy _ (by norm_num)]; push_neg; exact ⟨b1, b2⟩
    · rw [sx _ (by norm_num)]; push_neg; exact ⟨a1, a2⟩
    · rw [sy _ (by norm_num)]; push_neg; exact ⟨b1, b2⟩
    · rw [sx _ (by norm_num)]; push_neg; exact ⟨a1, a2⟩

/-- C11: when the transformed point set of the instance is the square
`(0,0),(10,0),(10,10),(0,10)`, the point test at the integer point `(px, py)` returns `true`
exactly when `0 ≤ px ≤ 10` and `0 ≤ py ≤ 10`, and `false` otherwise. The box is the one built
by `get_bbox_from_dimensions(0, 0, 0.2, 0.2)` and translated to `(px, py)`; the normals are
those of Section 4.2. -/
theorem point_collision_square (engine : Engine K) (inst : object_collisions K) (px py : Int)
    (hsq : transformedPoints engine inst = boxCorners (0 : K) 0 10 10)
    (hoff : engine.offsetPoints = offsetPoints) :
    get_polygon_point_collision computeNormals engine inst px py =
      some (decide ((0 ≤ px ∧ px ≤ 10) ∧ (0 ≤ py ∧ py ≤ 10))) := by
  have hdef : get_polygon_point_collision computeNormals engine inst px py =
      match get_polygon_polygon_collision computeNormals
        (engine.offsetPoints bbox_main (px : K) (py : K)) (transformedPoints engine inst) with
      | none => none
      | some collides => some (collides != false) := rfl
  have hbox : engine.offsetPoints bbox_main (px : K) (py : K) =
      [((px : K), (py : K)), ((px : K), (py : K)), ((px : K), (py : K)), ((px : K), (py : K))] := by
    rw [hoff, bbox_main_eq]
    simp [offsetPoints, translate]
  rw [hdef, hsq, hbox]
  have key := point_square_collision_iff (px : K) (py : K)
  have hcast : ((0 ≤ (px : K) ∧ (px : K) ≤ 10) ∧ (0 ≤ (py : K) ∧ (py : K) ≤ 10)) ↔
      ((0 ≤ px ∧ px ≤ 10) ∧ (0 ≤ py ∧ py ≤ 10)) := by
    have h10 : (10 : K) = ((10 : Int) : K) := by norm_num
    rw [h10, Int.cast_nonneg, Int.cast_nonneg, Int.cast_le, Int.cast_le]
  rw [hcast] at key
  rcases collision_isSome computeNormals
    [((px : K), (py : K)), ((px : K), (py : K)), ((px : K), (py : K)), ((px : K), (py : K))]
    (boxCorners (0 : K) 0 10 10) (List.cons_ne_nil _ _) (List.cons_ne_nil _ _) with h | h
  · rw [h]
    have := key.1 h
    simp [this]
  · rw [h]
    have : ¬ ((0 ≤ px ∧ px ≤ 10) ∧ (0 ≤ py ∧ py ≤ 10)) := by
      intro hc
      rw [key.2 hc] at h
      exact absurd h (by simp)
    simp [this]

/-- Witness, and the two examples of the specification: the point `(5,5)` collides with the
square, the point `(100,100)` does not. -/
theorem point_collision_square_witness :
    (transformedPoints squareEngine squareInst = boxCorners (0 : ℚ) 0 10 10 ∧
      squareEngine.offsetPoints = offsetPoints) ∧
    get_polygon_point_collision computeNormals squareEngine squareInst 5 5 = some true ∧
    get_polygon_point_collision computeNormals squareEngine squareInst 100 100 = some false :=
  ⟨⟨rfl, rfl⟩,
    (point_collision_square squareEngine squareInst 5 5 rfl rfl).trans (by decide),
    (point_collision_square squareEngine squareInst 100 100 rfl rfl).trans (by decide)⟩

theorem getEllipseProjectionPoints_ne_nil {sin cos : K → K} {t cx cy rx ry : K}
    {E : List (Vec2 K)} (h : getEllipseProjectionPoints sin cos t cx cy rx ry = some E) :
    E ≠ [] := by
  simp only [getEllipseProjectionPoints] at h
  split_ifs at h
  simp only [Option.some.injEq] at h
  rw [← h]
  exact List.cons_ne_nil _ _

theorem ellipseSegment_ne_nil {sin cos : K → K} {abv : Vec2 K → Vec2 K → K}
    {P : List (Vec2 K)} {x2 y2 rx ry : K} {size i : Nat} {E : List (Vec2 K)}
    (h : ellipseSegment sin cos abv P x2 y2 rx ry size i = some E) : E ≠ [] := by
  unfold ellipseSegment at h
  split at h
  · exact getEllipseProjectionPoints_ne_nil h
  · exact absurd h (by simp)

/-- One turn of the loop of `get_polygon_ellipse_collision`. -/
theorem ellipseLoop_cons (sin cos : K → K) (abv : Vec2 K → Vec2 K → K)
    (P : List (Vec2 K)) (hP : P ≠ []) (x2 y2 rx ry : K) (size : Nat)
    (n : Vec2 K) (rest : List (Vec2 K)) (i : Nat) (flag : Bool) :
    ellipseLoop sin cos abv P x2 y2 rx ry size (n :: rest) i flag =
      match ellipseSegment sin cos abv P x2 y2 rx ry size i with
      | none => none
      | some E =>
        if Separates P E n then some true
        else ellipseLoop sin cos abv P x2 y2 rx ry size rest (i + 1) false := by
  simp only [ellipseLoop, ellipseSegment]
  cases hp2 : P[i]? with
  | none => rfl
  | some point2 =>
    simp only
    generalize (if i = size - 1 then P[0]? else P[i + 1]?) = o
    cases o with
    | none => rfl
    | some point1 =>
      simp only
      cases hE : getEllipseProjectionPoints sin cos (-abv point1 point2) x2 y2 rx ry with
      | none => rfl
      | some E =>
        simp only
        obtain ⟨r1, h1, h1min, h1max⟩ := getMinMaxProjection_eq P n hP
        obtain ⟨r2, h2, h2min, h2max⟩ :=
          getMinMaxProjection_eq E n (getEllipseProjectionPoints_ne_nil hE)
        simp only [h1, h2, h1min, h1max, h2min, h2max]
        by_cases hs : Separates P E n
        · have : (decide (maxProjection P n < minProjection E n) ||
              decide (maxProjection E n < minProjection P n)) = true := by
            simpa [Separates] using hs
          simp [this, hs]
        · have : (decide (maxProjection P n < minProjection E n) ||
              decide (maxProjection E n < minProjection P n)) = false := by
            simpa [Separates] using hs
          simp [this, hs]

/-- The loop of `get_polygon_ellipse_collision` leaves the flag `false` exactly when every axis
has a segment that it does not separate from the polygon, and `true` exactly when there is a
first axis that separates. -/
theorem ellipseLoop_spec (sin cos : K → K) (abv : Vec2 K → Vec2 K → K)
    (P : List (Vec2 K)) (hP : P ≠ []) (x2 y2 rx ry : K) (size : Nat) (ns : List (Vec2 K)) :
    ∀ i,
      (ellipseLoop sin cos abv P x2 y2 rx ry size ns i false = some false ↔
        ∀ k n, ns[k]? = some n →
          ∃ E, ellipseSegment sin cos abv P x2 y2 rx ry size (i + k) = some E ∧
            ¬ Separates P E n) ∧
      (ellipseLoop sin cos abv P x2 y2 rx ry size ns i false = some true ↔
        ∃ k n, ns[k]? = some n ∧
          (∃ E, ellipseSegment sin cos abv P x2 y2 rx ry size (i + k) = some E ∧
            Separates P E n) ∧
          ∀ j, j < k → ∀ m, ns[j]? = some m →
            ∃ E, ellipseSegment sin cos abv P x2 y2 rx ry size (i + j) = some E ∧
              ¬ Separates P E m) := by
  induction ns with
  | nil =>
    intro i
    refine ⟨⟨fun _ k n h => by simp at h, fun _ => rfl⟩, ⟨fun h => ?_, ?_⟩⟩
    · simp [ellipseLoop] at h
    · rintro ⟨k, n, h, -⟩
      simp at h
  | cons n rest ih =>
    intro i
    rw [ellipseLoop_cons sin cos abv P hP]
    cases hseg : ellipseSegment sin cos abv P x2 y2 rx ry size i with
    | none =>
      simp only
      refine ⟨⟨fun h => by simp at h, fun h => ?_⟩, ⟨fun h => by simp at h, ?_⟩⟩
      · obtain ⟨E, hE, -⟩ := h 0 n (by simp)
        rw [Nat.add_zero, hseg] at hE
        exact absurd hE (by simp)
      · rintro ⟨k, m, hk, ⟨E, hE, hs⟩, hbefore⟩
        cases k with
        | zero =>
          rw [Nat.add_zero, hseg] at hE
          exact absurd hE (by simp)
        | succ k =>
          obtain ⟨E0, hE0, -⟩ := hbefore 0 (Nat.succ_pos _) n (by simp)
          rw [Nat.add_zero, hseg] at hE0
          exact absurd hE0 (by simp)
    | some E =>
      simp only
      by_cases hs : Separates P E n
      · rw [if_pos hs]
        refine ⟨⟨fun h => by simp at h, fun h => ?_⟩, ⟨fun _ => ?_, fun _ => rfl⟩⟩
        · obtain ⟨E0, hE0, hns⟩ := h 0 n (by simp)
          rw [Nat.add_zero, hseg] at hE0
          cases hE0
          exact absurd hs hns
        · exact ⟨0, n, by simp, ⟨E, by rw [Nat.add_zero]; exact hseg, hs⟩,
            fun j hj => absurd hj (Nat.not_lt_zero _)⟩
      · rw [if_neg hs]
        obtain ⟨ih1, ih2⟩ := ih (i + 1)
        refine ⟨ih1.trans ⟨fun h k m hk => ?_, fun h k m hk => ?_⟩,
          ih2.trans ⟨?_, ?_⟩⟩
        · cases k with
          | zero =>
            simp only [List.getElem?_cons_zero, Option.some.injEq] at hk
            subst hk
            exact ⟨E, by rw [Nat.add_zero]; exact hseg, hs⟩
          | succ k =>
            have := h k m (by simpa using hk)
            rwa [Nat.add_assoc, Nat.add_comm 1 k] at this
        · have := h (k + 1) m (by simpa using hk)
          rwa [Nat.add_assoc, Nat.add_comm 1 k]
        · rintro ⟨k, m, hk, ⟨E1, hE1, hs1⟩, hbefore⟩
          refine ⟨k + 1, m, by simpa using hk, ⟨E1, ?_, hs1⟩, fun j hj m2 hm2 => ?_⟩
          · rwa [Nat.add_assoc, Nat.add_comm 1 k] at hE1
          · cases j with
            | zero =>
              simp only [List.getElem?_cons_zero, Option.some.injEq] at hm2
              subst hm2
              exact ⟨E, by rw [Nat.add_zero]; exact hseg, hs⟩
            | succ j =>
              have := hbefore j (by omega) m2 (by simpa using hm2)
              rwa [Nat.add_assoc, Nat.add_comm 1 j] at this
        · rintro ⟨k, m, hk, ⟨E1, hE1, hs1⟩, hbefore⟩
          cases k with
          | zero =>
            simp only [List.getElem?_cons_zero, Option.some.injEq] at hk
            subst hk
            rw [Nat.add_zero, hseg] at hE1
            cases hE1
            exact absurd hs1 hs
          | succ k =>
            refine ⟨k, m, by simpa using hk, ⟨E1, ?_, hs1⟩, fun j hj m2 hm2 => ?_⟩
            · rwa [Nat.add_assoc, Nat.add_comm 1 k]
            · have := hbefore (j + 1) (by omega) m2 (by simpa using hm2)
              rwa [Nat.add_assoc, Nat.add_comm 1 j]

/-- C15: for a non-empty polygon `P`, `get_polygon_ellipse_collision` returns `true` exactly when
every normal of `P` has its two-point ellipse segment (computed for the angle of that edge) and
does not separate the projection of `P` from the projection of the segment; it returns `false`
exactly when there is a first normal that separates, the normals after it not being looked at.
Only the normals of `P` are tested. When every segment is defined, one of the two is the case. -/
theorem ellipse_collision_iff (cn : List (Vec2 K) → List (Vec2 K)) (sin cos : K → K)
    (abv : Vec2 K → Vec2 K → K) (P : List (Vec2 K)) (x2 y2 rx ry : K) (hP : P ≠ []) :
    (get_polygon_ellipse_collision cn sin cos abv P x2 y2 rx ry = some true ↔
      ∀ k n, (cn P)[k]? = some n →
        ∃ E, ellipseSegment sin cos abv P x2 y2 rx ry (cn P).length k = some E ∧
          ¬ Separates P E n) ∧
    (get_polygon_ellipse_collision cn sin cos abv P x2 y2 rx ry = some false ↔
      ∃ k n, (cn P)[k]? = some n ∧
        (∃ E, ellipseSegment sin cos abv P x2 y2 rx ry (cn P).length k = some E ∧
          Separates P E n) ∧
        ∀ j, j < k → ∀ m, (cn P)[j]? = some m →
          ∃ E, ellipseSegment sin cos abv P x2 y2 rx ry (cn P).length j = some E ∧
            ¬ Separates P E m) ∧
    ((∀ k, k < (cn P).length →
        ∃ E, ellipseSegment sin cos abv P x2 y2 rx ry (cn P).length k = some E) →
      get_polygon_ellipse_collision cn sin cos abv P x2 y2 rx ry = some true ∨
        get_polygon_ellipse_collision cn sin cos abv P x2 y2 rx ry = some false) := by
  obtain ⟨h1, h2⟩ := ellipseLoop_spec sin cos abv P hP x2 y2 rx ry (cn P).length (cn P) 0
  simp only [Nat.zero_add] at h1 h2
  have hdef : get_polygon_ellipse_collision cn sin cos abv P x2 y2 rx ry =
      match ellipseLoop sin cos abv P x2 y2 rx ry (cn P).length (cn P) 0 false with
      | none => none
      | some isSeparated => if !isSeparated then some true else some false := rfl
  have ht : get_polygon_ellipse_collision cn sin cos abv P x2 y2 rx ry = some true ↔
      ellipseLoop sin cos abv P x2 y2 rx ry (cn P).length (cn P) 0 false = some false := by
    rw [hdef]
    cases ellipseLoop sin cos abv P x2 y2 rx ry (cn P).length (cn P) 0 false with
    | none => simp
    | some b => cases b <;> simp
  have hf : get_polygon_ellipse_collision cn sin cos abv P x2 y2 rx ry = some false ↔
      ellipseLoop sin cos abv P x2 y2 rx ry (cn P).length (cn P) 0 false = some true := by
    rw [hdef]
    cases ellipseLoop sin cos abv P x2 y2 rx ry (cn P).length (cn P) 0 false with
    | none => simp
    | some b => cases b <;> simp
  refine ⟨ht.trans h1, hf.trans h2, fun hall => ?_⟩
  by_cases hex : ∃ k n, (cn P)[k]? = some n ∧
      ∃ E, ellipseSegment sin cos abv P x2 y2 rx ry (cn P).length k = some E ∧ Separates P E n
  · -- the least index of a separating axis
    classical
    have hex2 : ∃ k, ∃ n, (cn P)[k]? = some n ∧
        ∃ E, ellipseSegment sin cos abv P x2 y2 rx ry (cn P).length k = some E ∧
          Separates P E n := hex
    let k0 := Nat.find hex2
    obtain ⟨n, hn, hE⟩ := Nat.find_spec hex2
    right
    refine (hf.trans h2).2 ⟨k0, n, hn, hE, fun j hj m hm => ?_⟩
    have hjlen : j < (cn P).length := by
      by_contra hcon
      rw [List.getElem?_eq_none (by omega)] at hm
      exact absurd hm (by simp)
    obtain ⟨E, hEj⟩ := hall j hjlen
    refine ⟨E, hEj, fun hs => ?_⟩
    exact Nat.find_min hex2 hj ⟨m, hm, E, hEj, hs⟩
  · left
    refine (ht.trans h1).2 (fun k n hk => ?_)
    have hklen : k < (cn P).length := by
      by_contra hcon
      rw [List.getElem?_eq_none (by omega)] at hk
      exact absurd hk (by simp)
    obtain ⟨E, hEk⟩ := hall k hklen
    exact ⟨E, hEk, fun hs => hex ⟨k, n, hk, E, hEk, hs⟩⟩

/-- Witness: the square `(0,0),(10,0),(10,10),(0,10)` with the normals of Section 4.2, the
sine and cosine of the real numbers, and the ellipse with radii `2` and `3` about `(1,1)`. -/
theorem ellipse_collision_iff_witness :
    (boxCorners (0 : ℝ) 0 10 10 ≠ []) ∧
    ((get_polygon_ellipse_collision computeNormals Real.sin Real.cos (fun _ _ => 0)
          (boxCorners (0 : ℝ) 0 10 10) 1 1 2 3 = some true ↔
        ∀ k n, (computeNormals (boxCorners (0 : ℝ) 0 10 10))[k]? = some n →
          ∃ E, ellipseSegment Real.sin Real.cos (fun _ _ => 0) (boxCorners (0 : ℝ) 0 10 10)
              1 1 2 3 (computeNormals (boxCorners (0 : ℝ) 0 10 10)).length k = some E ∧
            ¬ Separates (boxCorners (0 : ℝ) 0 10 10) E n) ∧
      (get_polygon_ellipse_collision computeNormals Real.sin Real.cos (fun _ _ => 0)
          (boxCorners (0 : ℝ) 0 10 10) 1 1 2 3 = some false ↔
        ∃ k n, (computeNormals (boxCorners (0 : ℝ) 0 10 10))[k]? = some n ∧
          (∃ E, ellipseSegment Real.sin Real.cos (fun _ _ => 0) (boxCorners (0 : ℝ) 0 10 10)
              1 1 2 3 (computeNormals (boxCorners (0 : ℝ) 0 10 10)).length k = some E ∧
            Separates (boxCorners (0 : ℝ) 0 10 10) E n) ∧
          ∀ j, j < k → ∀ m, (computeNormals (boxCorners (0 : ℝ) 0 10 10))[j]? = some m →
            ∃ E, ellipseSegment Real.sin Real.cos (fun _ _ => 0) (boxCorners (0 : ℝ) 0 10 10)
                1 1 2 3 (computeNormals (boxCorners (0 : ℝ) 0 10 10)).length j = some E ∧
              ¬ Separates (boxCorners (0 : ℝ) 0 10 10) E m) ∧
      ((∀ k, k < (computeNormals (boxCorners (0 : ℝ) 0 10 10)).length →
          ∃ E, ellipseSegment Real.sin Real.cos (fun _ _ => 0) (boxCorners (0 : ℝ) 0 10 10)
            1 1 2 3 (computeNormals (boxCorners (0 : ℝ) 0 10 10)).length k = some E) →
        get_polygon_ellipse_collision computeNormals Real.sin Real.cos (fun _ _ => 0)
            (boxCorners (0 : ℝ) 0 10 10) 1 1 2 3 = some true ∨
          get_polygon_ellipse_collision computeNormals Real.sin Real.cos (fun _ _ => 0)
            (boxCorners (0 : ℝ) 0 10 10) 1 1 2 3 = some false)) :=
  ⟨List.cons_ne_nil _ _,
    ellipse_collision_iff computeNormals Real.sin Real.cos (fun _ _ => 0) _ 1 1 2 3
      (List.cons_ne_nil _ _)⟩

/-! ## Scaled and zero axes -/

theorem isFirstMin_unique {ds : List K} {m m2 : K} {i i2 : Nat}
    (h : IsFirstMin ds m i) (h2 : IsFirstMin ds m2 i2) : m = m2 ∧ i = i2 := by
  have hm : m = m2 :=
    le_antisymm (h.2.1 _ (List.getElem?_mem h2.1)) (h2.2.1 _ (List.getElem?_mem h.1))
  subst hm
  refine ⟨rfl, ?_⟩
  rcases Nat.lt_trichotomy i i2 with hlt | heq | hgt
  · exact absurd (h2.2.2 i hlt m h.1) (lt_irrefl _)
  · exact heq
  · exact absurd (h.2.2 i2 hgt m h2.1) (lt_irrefl _)

theorem isFirstMax_unique {ds : List K} {m m2 : K} {i i2 : Nat}
    (h : IsFirstMax ds m i) (h2 : IsFirstMax ds m2 i2) : m = m2 ∧ i = i2 := by
  have hm : m = m2 :=
    le_antisymm (h2.2.1 _ (List.getElem?_mem h.1)) (h.2.1 _ (List.getElem?_mem h2.1))
  subst hm
  refine ⟨rfl, ?_⟩
  rcases Nat.lt_trichotomy i i2 with hlt | heq | hgt
  · exact absurd (h2.2.2 i hlt m h.1) (lt_irrefl _)
  · exact heq
  · exact absurd (h.2.2 i2 hgt m h2.1) (lt_irrefl _)

theorem isFirstMin_scale {ds : List K} {m : K} {i : Nat} (h : IsFirstMin ds m i)
    (k : K) (hk : 0 < k) : IsFirstMin (ds.map (fun x => k * x)) (k * m) i := by
  refine ⟨by simp [List.getElem?_map, h.1], ?_, ?_⟩
  · intro x hx
    obtain ⟨y, hy, rfl⟩ := List.mem_map.1 hx
    exact mul_le_mul_of_nonneg_left (h.2.1 y hy) hk.le
  · intro j hj x hx
    rw [List.getElem?_map] at hx
    cases hd : ds[j]? with
    | none => rw [hd] at hx; simp at hx
    | some y =>
      rw [hd] at hx
      simp only [Option.map_some', Option.some.injEq] at hx
      rw [← hx]
      exact mul_lt_mul_of_pos_left (h.2.2 j hj y hd) hk

theorem isFirstMax_scale {ds : List K} {m : K} {i : Nat} (h : IsFirstMax ds m i)
    (k : K) (hk : 0 < k) : IsFirstMax (ds.map (fun x => k * x)) (k * m) i := by
  refine ⟨by simp [List.getElem?_map, h.1], ?_, ?_⟩
  · intro x hx
    obtain ⟨y, hy, rfl⟩ := List.mem_map.1 hx
    exact mul_le_mul_of_nonneg_left (h.2.1 y hy) hk.le
  · intro j hj x hx
    rw [List.getElem?_map] at hx
    cases hd : ds[j]? with
    | none => rw [hd] at hx; simp at hx
    | some y =>
      rw [hd] at hx
      simp only [Option.map_some', Option.some.injEq] at hx
      rw [← hx]
      exact mul_lt_mul_of_pos_left (h.2.2 j hj y hd) hk

theorem projections_scale (P : List (Vec2 K)) (a : Vec2 K) (k : K) :
    projections P (k * a.1, k * a.2) = (projections P a).map (fun x => k * x) := by
  simp only [projections, List.map_map]
  apply List.map_congr_left
  intro p _
  exact dot_scale p a k

/-- Scaling the axis by a positive factor scales both extreme projections by that factor and
leaves the indices where they are taken. -/
theorem getMinMaxProjection_scale (P : List (Vec2 K)) (a : Vec2 K) (k : K) (hk : 0 < k)
    (hP : P ≠ []) :
    ∃ r s, getMinMaxProjection P a = some r ∧
      getMinMaxProjection P (k * a.1, k * a.2) = some s ∧
      s.min_projection = k * r.min_projection ∧ s.max_projection = k * r.max_projection ∧
      s.min_index = r.min_index ∧ s.max_index = r.max_index := by
  obtain ⟨r, hr, hrmin, hrmax⟩ := getMinMaxProjection_spec P a hP
  obtain ⟨s, hs, hsmin, hsmax⟩ := getMinMaxProjection_spec P (k * a.1, k * a.2) hP
  rw [projections_scale] at hsmin hsmax
  have h1 := isFirstMin_unique hsmin (isFirstMin_scale hrmin k hk)
  have h2 := isFirstMax_unique hsmax (isFirstMax_scale hrmax k hk)
  exact ⟨r, s, hr, hs, h1.1, h2.1, h1.2, h2.2⟩

/-- C22: axis scaling invariance. For non-empty point sets and `k > 0`, the separation test
computed from the records of `getMinMaxProjection` on the axis `k * a` has the truth value it
has on the axis `a`, and the records hold the same `min_index` and `max_index` for `k * a` as
for `a`. -/
theorem axis_scaling_invariance (A B : List (Vec2 K)) (a : Vec2 K) (k : K) (hk : 0 < k)
    (hA : A ≠ []) (hB : B ≠ []) :
    ∃ rA rB sA sB,
      getMinMaxProjection A a = some rA ∧ getMinMaxProjection B a = some rB ∧
      getMinMaxProjection A (k * a.1, k * a.2) = some sA ∧
      getMinMaxProjection B (k * a.1, k * a.2) = some sB ∧
      sA.min_index = rA.min_index ∧ sA.max_index = rA.max_index ∧
      sB.min_index = rB.min_index ∧ sB.max_index = rB.max_index ∧
      ((sA.max_projection < sB.min_projection ∨ sB.max_projection < sA.min_projection) ↔
        (rA.max_projection < rB.min_projection ∨ rB.max_projection < rA.min_projection)) := by
  obtain ⟨rA, sA, hrA, hsA, a1, a2, a3, a4⟩ := getMinMaxProjection_scale A a k hk hA
  obtain ⟨rB, sB, hrB, hsB, b1, b2, b3, b4⟩ := getMinMaxProjection_scale B a k hk hB
  refine ⟨rA, rB, sA, sB, hrA, hrB, hsA, hsB, a3, a4, b3, b4, ?_⟩
  rw [a1, a2, b1, b2, mul_lt_mul_left hk, mul_lt_mul_left hk]

/-- Witness: the boxes `(0,0)-(10,10)` and `(20,20)-(30,30)`, the axis `(1,0)` and the factor
`3`. -/
theorem axis_scaling_invariance_witness :
    ((0 : ℚ) < 3 ∧ boxCorners (0 : ℚ) 0 10 10 ≠ [] ∧ boxCorners (20 : ℚ) 20 30 30 ≠ []) ∧
    ∃ rA rB sA sB,
      getMinMaxProjection (boxCorners (0 : ℚ) 0 10 10) (1, 0) = some rA ∧
      getMinMaxProjection (boxCorners (20 : ℚ) 20 30 30) (1, 0) = some rB ∧
      getMinMaxProjection (boxCorners (0 : ℚ) 0 10 10) (3 * 1, 3 * 0) = some sA ∧
      getMinMaxProjection (boxCorners (20 : ℚ) 20 30 30) (3 * 1, 3 * 0) = some sB ∧
      sA.min_index = rA.min_index ∧ sA.max_index = rA.max_index ∧
      sB.min_index = rB.min_index ∧ sB.max_index = rB.max_index ∧
      ((sA.max_projection < sB.min_projection ∨ sB.max_projection < sA.min_projection) ↔
        (rA.max_projection < rB.min_projection ∨ rB.max_projection < rA.min_projection)) :=
  ⟨⟨by norm_num, List.cons_ne_nil _ _, List.cons_ne_nil _ _⟩,
    axis_scaling_invariance _ _ (1, 0) 3 (by norm_num) (List.cons_ne_nil _ _)
      (List.cons_ne_nil _ _)⟩

theorem projectionLoop_zero_axis (vs : List (Vec2 K)) :
    ∀ j, projectionLoop (0, 0) vs j (0, 0, 0, 0) = (0, 0, 0, 0) := by
  induction vs with
  | nil => intro j; rfl
  | cons v vs ih =>
    intro j
    simp only [projectionLoop, dot_zero_axis, gt_iff_lt, lt_self_iff_false, if_false]
    exact ih (j + 1)

theorem getMinMaxProjection_zero_axis (P : List (Vec2 K)) (hP : P ≠ []) :
    getMinMaxProjection P (0, 0) =
      some { min_projection := 0, max_projection := 0, max_index := 0, min_index := 0 } := by
  cases P with
  | nil => exact absurd rfl hP
  | cons v vs =>
    simp only [getMinMaxProjection, dot_zero_axis, projectionLoop_zero_axis]

/-- C23: a zero axis never separates. For non-empty point sets the projection onto `(0,0)` has
`min = max = 0` and both indices `0`, the flag computed for that axis is `false` and the loop
goes on; so when `get_polygon_polygon_collision` returns `false`, an axis other than `(0,0)`
separates. The perpendicular of a degenerate edge (two equal vertices) is `(0,0)`. -/
theorem zero_axis_never_separates (cn : List (Vec2 K) → List (Vec2 K)) (A B : List (Vec2 K))
    (rest : List (Vec2 K)) (flag : Bool) (hA : A ≠ []) (hB : B ≠ []) :
    getMinMaxProjection A (0, 0) =
      some { min_projection := 0, max_projection := 0, max_index := 0, min_index := 0 } ∧
    getMinMaxProjection B (0, 0) =
      some { min_projection := 0, max_projection := 0, max_index := 0, min_index := 0 } ∧
    separationLoop A B ((0, 0) :: rest) flag = separationLoop A B rest false ∧
    (get_polygon_polygon_collision cn A B = some false →
      ∃ n, (n ∈ cn A ∨ n ∈ cn B) ∧ n ≠ (0, 0) ∧ Separates A B n) ∧
    ∀ p : Vec2 K, perp (p - p) = (0, 0) := by
  have h1 := getMinMaxProjection_zero_axis A hA
  have h2 := getMinMaxProjection_zero_axis B hB
  refine ⟨h1, h2, ?_, ?_, ?_⟩
  · simp only [separationLoop, h1, h2, lt_self_iff_false, decide_False, Bool.or_self]
    rfl
  · intro hfalse
    obtain ⟨n, hn, hs⟩ := (collision_eq_false_iff cn A B hA hB).1 hfalse
    refine ⟨n, hn, ?_, hs⟩
    rintro rfl
    exact not_separates_zero A B hA hB hs
  · intro p
    simp [perp]

/-- Witness: the boxes `(0,0)-(10,10)` and `(20,20)-(30,30)` with the normals of
Section 4.2. -/
theorem zero_axis_never_separates_witness :
    (boxCorners (0 : ℚ) 0 10 10 ≠ [] ∧ boxCorners (20 : ℚ) 20 30 30 ≠ []) ∧
    (getMinMaxProjection (boxCorners (0 : ℚ) 0 10 10) (0, 0) =
        some { min_projection := 0, max_projection := 0, max_index := 0, min_index := 0 } ∧
      getMinMaxProjection (boxCorners (20 : ℚ) 20 30 30) (0, 0) =
        some { min_projection := 0, max_projection := 0, max_index := 0, min_index := 0 } ∧
      separationLoop (boxCorners (0 : ℚ) 0 10 10) (boxCorners (20 : ℚ) 20 30 30)
          ((0, 0) :: [(1, 0)]) true =
        separationLoop (boxCorners (0 : ℚ) 0 10 10) (boxCorners (20 : ℚ) 20 30 30)
          [(1, 0)] false ∧
      (get_polygon_polygon_collision computeNormals
          (boxCorners (0 : ℚ) 0 10 10) (boxCorners (20 : ℚ) 20 30 30) = some false →
        ∃ n, (n ∈ computeNormals (boxCorners (0 : ℚ) 0 10 10) ∨
            n ∈ computeNormals (boxCorners (20 : ℚ) 20 30 30)) ∧ n ≠ (0, 0) ∧
          Separates (boxCorners (0 : ℚ) 0 10 10) (boxCorners (20 : ℚ) 20 30 30) n) ∧
      ∀ p : Vec2 ℚ, perp (p - p) = (0, 0)) :=
  ⟨⟨List.cons_ne_nil _ _, List.cons_ne_nil _ _⟩,
    zero_axis_never_separates computeNormals _ _ [(1, 0)] true (List.cons_ne_nil _ _)
      (List.cons_ne_nil _ _)⟩

/-! ## The two readings of the box -/

/-- C24: the box of `get_bbox_from_dimensions(x, y, w, h)`, which takes `w` and `h` as
coordinates, is the box with the corners `(x,y), (x+w,y), (x+w,y+h), (x,y+h)` exactly when
`x = 0` and `y = 0`; the two adapters call it with `x = y = 0` only, so the box of
`get_polygon_point_collision` and the box that `get_polygon_bbox_collision` passes on are the
same under either reading. -/
theorem bbox_readings_agree (cn : List (Vec2 K) → List (Vec2 K)) (engine : Engine K)
    (inst1 inst2 : object_collisions K) (x y : K) (w h : Int) :
    (get_bbox_from_dimensions x y w h = offset_bbox x y w h ↔ x = 0 ∧ y = 0) ∧
    (bbox_main : List (Vec2 K)) = offset_bbox 0 0 (doubleToInt 0.2) (doubleToInt 0.2) ∧
    get_polygon_bbox_collision cn engine inst1 inst2 =
      (match get_polygon_polygon_collision cn (transformedPoints engine inst1)
          (engine.offsetPoints (offset_bbox 0 0 (maskSprite engine inst2).width
            (maskSprite engine inst2).height) inst2.x inst2.y) with
        | none => none
        | some collides => some (if collides then some inst2 else none)) := by
  have h0 : ∀ w h : Int, get_bbox_from_dimensions (0 : K) 0 w h = offset_bbox 0 0 w h := by
    intro w h
    simp [get_bbox_from_dimensions, offset_bbox]
  refine ⟨⟨fun heq => ?_, ?_⟩, h0 _ _, ?_⟩
  · simp only [get_bbox_from_dimensions, offset_bbox, List.cons.injEq, Prod.mk.injEq,
      and_true, true_and] at heq
    obtain ⟨h1, -, h2⟩ := heq
    exact ⟨by linarith, by linarith⟩
  · rintro ⟨rfl, rfl⟩
    exact h0 w h
  · rw [← h0]
    rfl

/-! ## The ellipse segment -/

theorem circle_denominator (s c R : K) (hsc : s ^ 2 + c ^ 2 = 1) :
    R ^ 2 * s ^ 2 + R ^ 2 * c ^ 2 = R ^ 2 := by
  have : R ^ 2 * s ^ 2 + R ^ 2 * c ^ 2 = R ^ 2 * (s ^ 2 + c ^ 2) := by ring
  rw [this, hsc, mul_one]

/-- C25: for a circle (`rx = ry = R`, `R ≠ 0`) the surrogate radius of
`getEllipseProjectionPoints` is `1` at every angle, whatever `R` is, and the points returned
are `(cos t - cx, sin t - cy)` and `(cos t + cx, sin t + cy)`. -/
theorem circle_surrogate_radius (t cx cy R : ℝ) (hR : R ≠ 0) :
    (R * R) / (R ^ 2 * Real.sin t ^ 2 + R ^ 2 * Real.cos t ^ 2) = 1 ∧
    getEllipseProjectionPoints Real.sin Real.cos t cx cy R R =
      some [(Real.cos t - cx, Real.sin t - cy), (Real.cos t + cx, Real.sin t + cy)] := by
  have hden : R ^ 2 * Real.sin t ^ 2 + R ^ 2 * Real.cos t ^ 2 = R ^ 2 :=
    circle_denominator _ _ R (Real.sin_sq_add_cos_sq t)
  have hR2 : R ^ 2 ≠ 0 := pow_ne_zero 2 hR
  have hr : (R * R) / (R ^ 2 * Real.sin t ^ 2 + R ^ 2 * Real.cos t ^ 2) = 1 := by
    rw [hden, ← pow_two]
    exact div_self hR2
  refine ⟨hr, ?_⟩
  simp only [getEllipseProjectionPoints]
  rw [if_neg (by rw [hden]; exact hR2), hr]
  simp only [one_mul]

/-- Witness: the circle of radius `7` about `(1,2)` at the angle `0`. -/
theorem circle_surrogate_radius_witness :
    ((7 : ℝ) ≠ 0) ∧
    ((7 * 7 : ℝ) / ((7 : ℝ) ^ 2 * Real.sin 0 ^ 2 + (7 : ℝ) ^ 2 * Real.cos 0 ^ 2) = 1 ∧
      getEllipseProjectionPoints Real.sin Real.cos (0 : ℝ) 1 2 7 7 =
        some [(Real.cos 0 - 1, Real.sin 0 - 2), (Real.cos 0 + 1, Real.sin 0 + 2)]) :=
  ⟨by norm_num, circle_surrogate_radius 0 1 2 7 (by norm_num)⟩

/-- C26: where the denominator is not zero, the second point returned by
`getEllipseProjectionPoints` minus the first is `(2 cx, 2 cy)`, whatever the radii and the angle
are; the two points are the same when the centre is the origin. -/
theorem ellipse_segment_extent (sin cos : K → K) (t cx cy rx ry : K)
    (h : rx ^ 2 * sin t ^ 2 + ry ^ 2 * cos t ^ 2 ≠ 0) :
    ∃ p1 p2 : Vec2 K, getEllipseProjectionPoints sin cos t cx cy rx ry = some [p1, p2] ∧
      p2 - p1 = (2 * cx, 2 * cy) ∧ (cx = 0 → cy = 0 → p1 = p2) := by
  refine ⟨((rx * ry) / (rx ^ 2 * sin t ^ 2 + ry ^ 2 * cos t ^ 2) * cos t - cx,
      (rx * ry) / (rx ^ 2 * sin t ^ 2 + ry ^ 2 * cos t ^ 2) * sin t - cy),
    ((rx * ry) / (rx ^ 2 * sin t ^ 2 + ry ^ 2 * cos t ^ 2) * cos t + cx,
      (rx * ry) / (rx ^ 2 * sin t ^ 2 + ry ^ 2 * cos t ^ 2) * sin t + cy), ?_, ?_, ?_⟩
  · simp only [getEllipseProjectionPoints, if_neg h]
  · ext <;> simp only [Prod.fst_sub, Prod.snd_sub] <;> ring
  · rintro rfl rfl
    simp

/-- Witness: the ellipse with radii `2` and `3` about `(1,1)` at the angle `0`. -/
theorem ellipse_segment_extent_witness :
    ((2 : ℝ) ^ 2 * Real.sin 0 ^ 2 + (3 : ℝ) ^ 2 * Real.cos 0 ^ 2 ≠ 0) ∧
    ∃ p1 p2 : Vec2 ℝ, getEllipseProjectionPoints Real.sin Real.cos 0 1 1 2 3 = some [p1, p2] ∧
      p2 - p1 = (2 * 1, 2 * 1) ∧ ((1 : ℝ) = 0 → (1 : ℝ) = 0 → p1 = p2) :=
  have h : (2 : ℝ) ^ 2 * Real.sin 0 ^ 2 + (3 : ℝ) ^ 2 * Real.cos 0 ^ 2 ≠ 0 := by
    simp [Real.sin_zero, Real.cos_zero]
  ⟨h, ellipse_segment_extent Real.sin Real.cos 0 1 1 2 3 h⟩

theorem denominator_eq_zero_iff (s c rx ry : K) :
    rx ^ 2 * s ^ 2 + ry ^ 2 * c ^ 2 = 0 ↔ (rx = 0 ∨ s = 0) ∧ (ry = 0 ∨ c = 0) := by
  have h1 : 0 ≤ rx ^ 2 * s ^ 2 := mul_nonneg (sq_nonneg _) (sq_nonneg _)
  have h2 : 0 ≤ ry ^ 2 * c ^ 2 := mul_nonneg (sq_nonneg _) (sq_nonneg _)
  rw [add_eq_zero_iff_of_nonneg h1 h2]
  simp only [mul_eq_zero, pow_eq_zero_iff, ne_eq, OfNat.ofNat_ne_zero, not_false_eq_true]

/-- C27: the denominator `rx² sin² t + ry² cos² t` of `getEllipseProjectionPoints` is zero
exactly when (`rx = 0` or `sin t = 0`) and (`ry = 0` or `cos t = 0`). So with `rx ≠ 0` and
`ry ≠ 0` it is positive at every angle and the function returns its two points, while one zero
radius is enough for a division by zero: `rx = 0` at the angle `π/2` (where `cos t = 0`),
`ry = 0` at the angle `0` (where `sin t = 0`). -/
theorem ellipse_denominator_zero_iff :
    (∀ t rx ry : ℝ, rx ^ 2 * Real.sin t ^ 2 + ry ^ 2 * Real.cos t ^ 2 = 0 ↔
      (rx = 0 ∨ Real.sin t = 0) ∧ (ry = 0 ∨ Real.cos t = 0)) ∧
    (∀ t cx cy rx ry : ℝ, rx ≠ 0 → ry ≠ 0 →
      0 < rx ^ 2 * Real.sin t ^ 2 + ry ^ 2 * Real.cos t ^ 2 ∧
      ∃ E, getEllipseProjectionPoints Real.sin Real.cos t cx cy rx ry = some E) ∧
    (∀ cx cy ry : ℝ,
      getEllipseProjectionPoints Real.sin Real.cos (Real.pi / 2) cx cy 0 ry = none) ∧
    (∀ cx cy rx : ℝ, getEllipseProjectionPoints Real.sin Real.cos 0 cx cy rx 0 = none) := by
  refine ⟨fun t rx ry => denominator_eq_zero_iff _ _ rx ry, ?_, ?_, ?_⟩
  · intro t cx cy rx ry hrx hry
    have hne : rx ^ 2 * Real.sin t ^ 2 + ry ^ 2 * Real.cos t ^ 2 ≠ 0 := by
      intro hzero
      rcases (denominator_eq_zero_iff _ _ rx ry).1 hzero with ⟨h1 | h1, h2 | h2⟩
      · exact hrx h1
      · exact hrx h1
      · exact hry h2
      · have := Real.sin_sq_add_cos_sq t
        rw [h1, h2] at this
        norm_num at this
    have hnonneg : 0 ≤ rx ^ 2 * Real.sin t ^ 2 + ry ^ 2 * Real.cos t ^ 2 :=
      add_nonneg (mul_nonneg (sq_nonneg _) (sq_nonneg _))
        (mul_nonneg (sq_nonneg _) (sq_nonneg _))
    refine ⟨lt_of_le_of_ne hnonneg (Ne.symm hne), ?_⟩
    simp only [getEllipseProjectionPoints, if_neg hne]
    exact ⟨_, rfl⟩
  · intro cx cy ry
    simp [getEllipseProjectionPoints, Real.cos_pi_div_two]
  · intro cx cy rx
    simp [getEllipseProjectionPoints, Real.sin_zero]

/-! ## The vertex accesses of `get_polygon_ellipse_collision` -/

theorem getEllipseProjectionPoints_eq_none_iff (sin cos : K → K) (t cx cy rx ry : K) :
    getEllipseProjectionPoints sin cos t cx cy rx ry = none ↔
      rx ^ 2 * sin t ^ 2 + ry ^ 2 * cos t ^ 2 = 0 := by
  simp only [getEllipseProjectionPoints]
  split_ifs with h
  · simp [h]
  · simp [h]

theorem getEllipseProjectionPoints_length {sin cos : K → K} {t cx cy rx ry : K}
    {E : List (Vec2 K)} (h : getEllipseProjectionPoints sin cos t cx cy rx ry = some E) :
    E.length = 2 := by
  simp only [getEllipseProjectionPoints] at h
  split_ifs at h
  simp only [Option.some.injEq] at h
  rw [← h]
  rfl

/-- When every edge has its segment, the loop of `get_polygon_ellipse_collision` comes to an
end with a result. -/
theorem ellipse_collision_defined (cn : List (Vec2 K) → List (Vec2 K)) (sin cos : K → K)
    (abv : Vec2 K → Vec2 K → K) (P : List (Vec2 K)) (x2 y2 rx ry : K) (hP : P ≠ [])
    (hall : ∀ k, k < (cn P).length →
      ∃ E, ellipseSegment sin cos abv P x2 y2 rx ry (cn P).length k = some E) :
    get_polygon_ellipse_collision cn sin cos abv P x2 y2 rx ry ≠ none := by
  obtain ⟨h1, h2⟩ := ellipseLoop_spec sin cos abv P hP x2 y2 rx ry (cn P).length (cn P) 0
  simp only [Nat.zero_add] at h1 h2
  have hdef : get_polygon_ellipse_collision cn sin cos abv P x2 y2 rx ry =
      match ellipseLoop sin cos abv P x2 y2 rx ry (cn P).length (cn P) 0 false with
      | none => none
      | some isSeparated => if !isSeparated then some true else some false := rfl
  have hloop : ellipseLoop sin cos abv P x2 y2 rx ry (cn P).length (cn P) 0 false ≠ none := by
    by_cases hex : ∃ k, ∃ n, (cn P)[k]? = some n ∧
        ∃ E, ellipseSegment sin cos abv P x2 y2 rx ry (cn P).length k = some E ∧
          Separates P E n
    · classical
      obtain ⟨n, hn, hE⟩ := Nat.find_spec hex
      have : ellipseLoop sin cos abv P x2 y2 rx ry (cn P).length (cn P) 0 false = some true := by
        refine h2.2 ⟨Nat.find hex, n, hn, hE, fun j hj m hm => ?_⟩
        have hjlen : j < (cn P).length := by
          by_contra hcon
          rw [List.getElem?_eq_none (by omega)] at hm
          exact absurd hm (by simp)
        obtain ⟨E, hEj⟩ := hall j hjlen
        exact ⟨E, hEj, fun hs => Nat.find_min hex hj ⟨m, hm, E, hEj, hs⟩⟩
      rw [this]
      simp
    · have : ellipseLoop sin cos abv P x2 y2 rx ry (cn P).length (cn P) 0 false = some false := by
        refine h1.2 (fun k n hk => ?_)
        have hklen : k < (cn P).length := by
          by_contra hcon
          rw [List.getElem?_eq_none (by omega)] at hk
          exact absurd hk (by simp)
        obtain ⟨E, hEk⟩ := hall k hklen
        exact ⟨E, hEk, fun hs => hex ⟨k, n, hk, E, hEk, hs⟩⟩
      rw [this]
      simp
  rw [hdef]
  cases hl : ellipseLoop sin cos abv P x2 y2 rx ry (cn P).length (cn P) 0 false with
  | none => exact absurd hl hloop
  | some b => cases b <;> simp

/-- C28: in `get_polygon_ellipse_collision`, for a polygon with at least one point for which
there are at most as many normals as points, every vertex access is in bounds: at the loop
index `i` the reads `points_poly[i]` and `points_poly[i + 1]` (or `points_poly[0]` at the last
normal index) find a point; both projections are taken on non-empty sets (the polygon, and the
segment of two points); so the only way to no result is a zero denominator. -/
theorem ellipse_accesses_in_bounds (cn : List (Vec2 K) → List (Vec2 K)) (sin cos : K → K)
    (abv : Vec2 K → Vec2 K → K) (P : List (Vec2 K)) (x2 y2 rx ry : K)
    (hP : 1 ≤ P.length) (hn : (cn P).length ≤ P.length) :
    (∀ i, i < (cn P).length →
      ∃ point2 point1, P[i]? = some point2 ∧
        (if i = (cn P).length - 1 then P[0]? else P[i + 1]?) = some point1 ∧
        (i ≠ (cn P).length - 1 → i + 1 < P.length) ∧
        ellipseSegment sin cos abv P x2 y2 rx ry (cn P).length i =
          getEllipseProjectionPoints sin cos (-abv point1 point2) x2 y2 rx ry) ∧
    (∀ n, ∃ r, getMinMaxProjection P n = some r) ∧
    (∀ t E n, getEllipseProjectionPoints sin cos t x2 y2 rx ry = some E →
      E.length = 2 ∧ ∃ r, getMinMaxProjection E n = some r) ∧
    (get_polygon_ellipse_collision cn sin cos abv P x2 y2 rx ry = none →
      ∃ i point2 point1, i < (cn P).length ∧ P[i]? = some point2 ∧
        (if i = (cn P).length - 1 then P[0]? else P[i + 1]?) = some point1 ∧
        rx ^ 2 * sin (-abv point1 point2) ^ 2 + ry ^ 2 * cos (-abv point1 point2) ^ 2 = 0) := by
  have hPne : P ≠ [] := by
    rintro rfl
    simp at hP
  have hread : ∀ i, i < (cn P).length →
      ∃ point2 point1, P[i]? = some point2 ∧
        (if i = (cn P).length - 1 then P[0]? else P[i + 1]?) = some point1 ∧
        (i ≠ (cn P).length - 1 → i + 1 < P.length) ∧
        ellipseSegment sin cos abv P x2 y2 rx ry (cn P).length i =
          getEllipseProjectionPoints sin cos (-abv point1 point2) x2 y2 rx ry := by
    intro i hi
    have hi2 : i < P.length := lt_of_lt_of_le hi hn
    have hsome : ∀ j, j < P.length → ∃ p, P[j]? = some p :=
      fun j hj => ⟨P[j], List.getElem?_eq_getElem hj⟩
    have hnext : ∃ point1, (if i = (cn P).length - 1 then P[0]? else P[i + 1]?) = some point1 := by
      split_ifs with hlast
      · exact hsome 0 (by omega)
      · exact hsome (i + 1) (by omega)
    obtain ⟨point1, h1⟩ := hnext
    refine ⟨P[i], point1, List.getElem?_eq_getElem hi2, h1, fun hlast => by omega, ?_⟩
    simp only [ellipseSegment, List.getElem?_eq_getElem hi2, h1]
  refine ⟨hread, ?_, ?_, ?_⟩
  · intro n
    obtain ⟨r, hr, -⟩ := getMinMaxProjection_spec P n hPne
    exact ⟨r, hr⟩
  · intro t E n hE
    refine ⟨getEllipseProjectionPoints_length hE, ?_⟩
    obtain ⟨r, hr, -⟩ := getMinMaxProjection_spec E n (getEllipseProjectionPoints_ne_nil hE)
    exact ⟨r, hr⟩
  · intro hnone
    by_contra hcon
    push_neg at hcon
    apply ellipse_collision_defined cn sin cos abv P x2 y2 rx ry hPne _ hnone
    intro k hk
    obtain ⟨point2, point1, h2, h1, -, hseg⟩ := hread k hk
    have hden := hcon k point2 point1 hk h2 h1
    rw [hseg]
    cases hE : getEllipseProjectionPoints sin cos (-abv point1 point2) x2 y2 rx ry with
    | none => exact absurd ((getEllipseProjectionPoints_eq_none_iff _ _ _ _ _ _ _).1 hE) hden
    | some E => exact ⟨E, rfl⟩

/-- Witness: the square `(0,0),(10,0),(10,10),(0,10)` with the normals of Section 4.2, the
sine and cosine of the real numbers, and the ellipse with radii `2` and `3` about `(1,1)`. -/
theorem ellipse_accesses_in_bounds_witness :
    (1 ≤ (boxCorners (0 : ℝ) 0 10 10).length ∧
      (computeNormals (boxCorners (0 : ℝ) 0 10 10)).length ≤ (boxCorners (0 : ℝ) 0 10 10).length) ∧
    ((∀ i, i < (computeNormals (boxCorners (0 : ℝ) 0 10 10)).length →
        ∃ point2 point1, (boxCorners (0 : ℝ) 0 10 10)[i]? = some point2 ∧
          (if i = (computeNormals (boxCorners (0 : ℝ) 0 10 10)).length - 1
            then (boxCorners (0 : ℝ) 0 10 10)[0]?
            else (boxCorners (0 : ℝ) 0 10 10)[i + 1]?) = some point1 ∧
          (i ≠ (computeNormals (boxCorners (0 : ℝ) 0 10 10)).length - 1 →
            i + 1 < (boxCorners (0 : ℝ) 0 10 10).length) ∧
          ellipseSegment Real.sin Real.cos (fun _ _ => 0) (boxCorners (0 : ℝ) 0 10 10) 1 1 2 3
              (computeNormals (boxCorners (0 : ℝ) 0 10 10)).length i =
            getEllipseProjectionPoints Real.sin Real.cos
              (-(fun _ _ => (0 : ℝ)) point1 point2) 1 1 2 3) ∧
      (∀ n, ∃ r, getMinMaxProjection (boxCorners (0 : ℝ) 0 10 10) n = some r) ∧
      (∀ t E n, getEllipseProjectionPoints Real.sin Real.cos t 1 1 2 3 = some E →
        E.length = 2 ∧ ∃ r, getMinMaxProjection E n = some r) ∧
      (get_polygon_ellipse_collision computeNormals Real.sin Real.cos (fun _ _ => 0)
          (boxCorners (0 : ℝ) 0 10 10) 1 1 2 3 = none →
        ∃ i point2 point1, i < (computeNormals (boxCorners (0 : ℝ) 0 10 10)).length ∧
          (boxCorners (0 : ℝ) 0 10 10)[i]? = some point2 ∧
          (if i = (computeNormals (boxCorners (0 : ℝ) 0 10 10)).length - 1
            then (boxCorners (0 : ℝ) 0 10 10)[0]?
            else (boxCorners (0 : ℝ) 0 10 10)[i + 1]?) = some point1 ∧
          (2 : ℝ) ^ 2 * Real.sin (-(fun _ _ => (0 : ℝ)) point1 point2) ^ 2 +
            (3 : ℝ) ^ 2 * Real.cos (-(fun _ _ => (0 : ℝ)) point1 point2) ^ 2 = 0)) :=
  have h1 : 1 ≤ (boxCorners (0 : ℝ) 0 10 10).length := by simp [boxCorners]
  have h2 : (computeNormals (boxCorners (0 : ℝ) 0 10 10)).length ≤
      (boxCorners (0 : ℝ) 0 10 10).length := by
    rw [computeNormals_boxCorners]
    simp [boxCorners]
  ⟨⟨h1, h2⟩,
    ellipse_accesses_in_bounds computeNormals Real.sin Real.cos (fun _ _ => 0) _ 1 1 2 3 h1 h2⟩

/-! ## Winding order -/

theorem edges_getElem?_of (P : List (Vec2 K)) (i : Nat) (p q : Vec2 K)
    (hp : P[i]? = some p) (hq : P[(i + 1) % P.length]? = some q) :
    (edges P)[i]? = some (p, q) := by
  have hi : i < P.length := by
    by_contra hcon
    rw [List.getElem?_eq_none (by omega)] at hp
    exact absurd hp (by simp)
  cases P with
  | nil => simp at hi
  | cons p0 ps =>
    have he := edgesFrom_getElem? p0 (p0 :: ps) i hi
    have hq2 := getD_succ_eq_mod (p0 :: ps) p0 (by simp) i hi q hq
    have hp2 : (p0 :: ps).getD i p0 = p := by simp [List.getD, hp]
    rw [hq2, hp2] at he
    exact he

theorem succ_mod_lt (n j : Nat) (hn : 0 < n) : (j + 1) % n < n := Nat.mod_lt _ hn

/-- The index of the edge of a closed vertex list that the edge `j` of the reversed list runs
along, backwards. -/
theorem reverse_edge_index (n j : Nat) (hj : j < n) :
    n - 1 - (j + 1) % n < n ∧ (n - 1 - (j + 1) % n + 1) % n = n - 1 - j := by
  by_cases h : j + 1 < n
  · rw [Nat.mod_eq_of_lt h]
    refine ⟨by omega, ?_⟩
    have : n - 1 - (j + 1) + 1 = n - 1 - j := by omega
    rw [this]
    exact Nat.mod_eq_of_lt (by omega)
  · have hjn : j + 1 = n := by omega
    rw [hjn, Nat.mod_self]
    refine ⟨by omega, ?_⟩
    have : n - 1 - 0 + 1 = n := by omega
    rw [this, Nat.mod_self]
    omega

theorem perp_swap (p q : Vec2 K) : perp (p - q) = -perp (q - p) := by
  ext <;> simp [perp]

/-- The normal with index `j` of the reversed vertex list is the opposite of a normal of the
list. -/
theorem computeNormals_reverse_getElem? (P : List (Vec2 K)) (hP : 2 ≤ P.length)
    (j : Nat) (hj : j < P.length) :
    ∃ m, (computeNormals P)[P.length - 1 - (j + 1) % P.length]? = some m ∧
      (computeNormals P.reverse)[j]? = some (-m) := by
  obtain ⟨hi, hnext⟩ := reverse_edge_index P.length j hj
  have hmod : (j + 1) % P.length < P.length := Nat.mod_lt _ (by omega)
  have hlenR : P.reverse.length = P.length := List.length_reverse P
  -- the two ends of the edge
  have hp : P[P.length - 1 - (j + 1) % P.length]? =
      some (P[P.length - 1 - (j + 1) % P.length]) := List.getElem?_eq_getElem hi
  have hjj : P.length - 1 - j < P.length := by omega
  have hq : P[P.length - 1 - j]? = some (P[P.length - 1 - j]) := List.getElem?_eq_getElem hjj
  have hedge := edges_getElem?_of P (P.length - 1 - (j + 1) % P.length) _ _ hp
    (by rw [hnext]; exact hq)
  have hRj : P.reverse[j]? = some (P[P.length - 1 - j]) := by
    rw [List.getElem?_reverse hj]; exact hq
  have hRnext : P.reverse[(j + 1) % P.reverse.length]? =
      some (P[P.length - 1 - (j + 1) % P.length]) := by
    rw [hlenR, List.getElem?_reverse hmod]; exact hp
  have hedgeR := edges_getElem?_of P.reverse j _ _ hRj hRnext
  refine ⟨perp (P[P.length - 1 - j] - P[P.length - 1 - (j + 1) % P.length]), ?_, ?_⟩
  · unfold computeNormals
    rw [if_neg (by omega), List.getElem?_map, hedge]
    rfl
  · unfold computeNormals
    rw [if_neg (by rw [hlenR]; omega), List.getElem?_map, hedgeR, ← perp_swap]
    rfl

theorem neg_mem_computeNormals_of_reverse (P : List (Vec2 K)) (n : Vec2 K)
    (h : n ∈ computeNormals P.reverse) : -n ∈ computeNormals P := by
  by_cases hP : 2 ≤ P.length
  · obtain ⟨j, hj⟩ := List.getElem?_of_mem h
    have hjlen : j < P.length := by
      by_contra hcon
      have hlen : (computeNormals P.reverse).length ≤ j := by
        unfold computeNormals
        split_ifs
        · simp
        · simp only [List.length_map, edges_length, List.length_reverse]; omega
      rw [List.getElem?_eq_none hlen] at hj
      exact absurd hj (by simp)
    obtain ⟨m, hm, hmR⟩ := computeNormals_reverse_getElem? P hP j hjlen
    rw [hmR] at hj
    have : n = -m := (Option.some.inj hj).symm
    rw [this, neg_neg]
    exact List.getElem?_mem hm
  · have : computeNormals P.reverse = [] := by
      unfold computeNormals
      rw [if_pos (by rw [List.length_reverse]; omega)]
    rw [this] at h
    simp at h

theorem mem_computeNormals_reverse_iff (P : List (Vec2 K)) (n : Vec2 K) :
    n ∈ computeNormals P.reverse ↔ -n ∈ computeNormals P := by
  constructor
  · exact neg_mem_computeNormals_of_reverse P n
  · intro h
    have := neg_mem_computeNormals_of_reverse P.reverse (-n) (by rw [List.reverse_reverse]; exact h)
    rwa [neg_neg] at this

theorem separates_neg (A B : List (Vec2 K)) (n : Vec2 K) (hA : A ≠ []) (hB : B ≠ []) :
    Separates A B (-n) ↔ Separates A B n := by
  have := separates_scale A B n (-1) (by norm_num) hA hB
  simpa using this

theorem separates_reverse_left (A B : List (Vec2 K)) (n : Vec2 K) (hA : A ≠ []) (hB : B ≠ []) :
    Separates A.reverse B n ↔ Separates A B n := by
  rw [separates_iff _ _ _ (by simpa using hA) hB, separates_iff _ _ _ hA hB]
  simp only [List.mem_reverse]

/-- Two calls with the same truth value of "no axis separates" return the same. -/
theorem collision_eq_of_iff (cn : List (Vec2 K) → List (Vec2 K)) (A B A2 B2 : List (Vec2 K))
    (hA : A ≠ []) (hB : B ≠ []) (hA2 : A2 ≠ []) (hB2 : B2 ≠ [])
    (h : (∀ n, n ∈ cn A2 ∨ n ∈ cn B2 → ¬ Separates A2 B2 n) ↔
      (∀ n, n ∈ cn A ∨ n ∈ cn B → ¬ Separates A B n)) :
    get_polygon_polygon_collision cn A2 B2 = get_polygon_polygon_collision cn A B := by
  have h1 := collision_eq_true_iff cn A B hA hB
  have h2 := collision_eq_true_iff cn A2 B2 hA2 hB2
  rcases collision_isSome cn A B hA hB with e1 | e1 <;>
    rcases collision_isSome cn A2 B2 hA2 hB2 with e2 | e2
  · rw [e1, e2]
  · exact absurd (h2.2 (h.2 (h1.1 e1))) (by rw [e2]; simp)
  · exact absurd (h1.2 (h.1 (h2.1 e2))) (by rw [e1]; simp)
  · rw [e1, e2]

/-- C21: winding-order independence. For polygons with at least three points, reversing the
vertex order of `A` turns every edge normal into its opposite (the normal with index `j` of
the reversed list is the opposite of a normal of `A`, and the reversed list has exactly the
opposites of the normals of `A`), and neither reversing `A` nor reversing `B` changes the
result of `get_polygon_polygon_collision`. The normals are those of Section 4.2. -/
theorem winding_order_independence (A B : List (Vec2 K))
    (hA : 3 ≤ A.length) (hB : 3 ≤ B.length) :
    (∀ j, j < A.length →
      ∃ m, (computeNormals A)[A.length - 1 - (j + 1) % A.length]? = some m ∧
        (computeNormals A.reverse)[j]? = some (-m)) ∧
    (∀ n, n ∈ computeNormals A.reverse ↔ -n ∈ computeNormals A) ∧
    get_polygon_polygon_collision computeNormals A.reverse B =
      get_polygon_polygon_collision computeNormals A B ∧
    get_polygon_polygon_collision computeNormals A B.reverse =
      get_polygon_polygon_collision computeNormals A B := by
  have hA0 : A ≠ [] := by rintro rfl; simp at hA
  have hB0 : B ≠ [] := by rintro rfl; simp at hB
  have hAr : A.reverse ≠ [] := by simpa using hA0
  have hBr : B.reverse ≠ [] := by simpa using hB0
  refine ⟨fun j hj => computeNormals_reverse_getElem? A (by omega) j hj,
    mem_computeNormals_reverse_iff A, ?_, ?_⟩
  · apply collision_eq_of_iff computeNormals A B A.reverse B hA0 hB0 hAr hB0
    constructor
    · intro h n hn
      rcases hn with hn | hn
      · have h1 := h (-n) (Or.inl ((mem_computeNormals_reverse_iff A (-n)).2
          (by rw [neg_neg]; exact hn)))
        rw [separates_reverse_left A B _ hA0 hB0, separates_neg A B n hA0 hB0] at h1
        exact h1
      · have h1 := h n (Or.inr hn)
        rwa [separates_reverse_left A B _ hA0 hB0] at h1
    · intro h n hn
      rw [separates_reverse_left A B _ hA0 hB0]
      rcases hn with hn | hn
      · have h1 := h (-n) (Or.inl ((mem_computeNormals_reverse_iff A n).1 hn))
        rwa [separates_neg A B n hA0 hB0] at h1
      · exact h n (Or.inr hn)
  · apply collision_eq_of_iff computeNormals A B A B.reverse hA0 hB0 hA0 hBr
    have hrev : ∀ n, Separates A B.reverse n ↔ Separates A B n := by
      intro n
      rw [separates_symm, separates_reverse_left B A n hB0 hA0, separates_symm]
    constructor
    · intro h n hn
      rcases hn with hn | hn
      · have h1 := h n (Or.inl hn)
        rwa [hrev] at h1
      · have h1 := h (-n) (Or.inr ((mem_computeNormals_reverse_iff B (-n)).2
          (by rw [neg_neg]; exact hn)))
        rw [hrev, separates_neg A B n hA0 hB0] at h1
        exact h1
    · intro h n hn
      rw [hrev]
      rcases hn with hn | hn
      · exact h n (Or.inl hn)
      · have h1 := h (-n) (Or.inr ((mem_computeNormals_reverse_iff B n).1 hn))
        rwa [separates_neg A B n hA0 hB0] at h1

/-- Witness: the triangle `(0,0),(4,0),(0,3)` and the square `(1,1),(2,1),(2,2),(1,2)`. -/
theorem winding_order_independence_witness :
    (3 ≤ ([(0, 0), (4, 0), (0, 3)] : List (Vec2 ℚ)).length ∧
      3 ≤ (boxCorners (1 : ℚ) 1 2 2).length) ∧
    ((∀ j, j < ([(0, 0), (4, 0), (0, 3)] : List (Vec2 ℚ)).length →
        ∃ m, (computeNormals ([(0, 0), (4, 0), (0, 3)] : List (Vec2 ℚ)))[
              ([(0, 0), (4, 0), (0, 3)] : List (Vec2 ℚ)).length - 1 -
                (j + 1) % ([(0, 0), (4, 0), (0, 3)] : List (Vec2 ℚ)).length]? = some m ∧
          (computeNormals ([(0, 0), (4, 0), (0, 3)] : List (Vec2 ℚ)).reverse)[j]? = some (-m)) ∧
      (∀ n, n ∈ computeNormals ([(0, 0), (4, 0), (0, 3)] : List (Vec2 ℚ)).reverse ↔
        -n ∈ computeNormals ([(0, 0), (4, 0), (0, 3)] : List (Vec2 ℚ))) ∧
      get_polygon_polygon_collision computeNormals
          ([(0, 0), (4, 0), (0, 3)] : List (Vec2 ℚ)).reverse (boxCorners (1 : ℚ) 1 2 2) =
        get_polygon_polygon_collision computeNormals [(0, 0), (4, 0), (0, 3)]
          (boxCorners (1 : ℚ) 1 2 2) ∧
      get_polygon_polygon_collision computeNormals [(0, 0), (4, 0), (0, 3)]
          (boxCorners (1 : ℚ) 1 2 2).reverse =
        get_polygon_polygon_collision computeNormals [(0, 0), (4, 0), (0, 3)]
          (boxCorners (1 : ℚ) 1 2 2)) :=
  ⟨⟨by decide, by decide⟩, winding_order_independence _ _ (by decide) (by decide)⟩

end Enigma
